import Mathlib

/-!
The module dependency graph of modv: parsing, filtering and rendering.

A shallow embedding of `graph/graph.go` (package `graph` of DoomConquer/modv).

* Text is a sequence of Unicode code points (`List Char`): the input stream is
  taken to be valid UTF-8, on which the byte-level `bufio.Reader.ReadBytes`
  and `bytes.Split` at the ASCII bytes `\n` and space cut exactly at those code points.
* A Go `map[K]V` is an association list with distinct keys; `GoMap.set` keeps the
  place of a key that is already there and puts a new key at the end.
* The out-of-range index `relation[1]` is a run-time fault of the Go program;
  `Parse` reports it as `Outcome.panicked`.
* The loop `for len(modIds) > 0` of `Render` is run with fuel.
* Go leaves the order of a `range` loop over a map open; `Render` takes the order in which
  line 115 visits `visited` as the argument `order`, any rearrangement of the entries.
-/

namespace Modv

/-! ## Go maps -/

/-- A Go map, kept as an association list. -/
abbrev GoMap (K V : Type) := List (K × V)

namespace GoMap

variable {K V : Type} [DecidableEq K]

/-- The lookup `v, ok := m[k]`. -/
def get : GoMap K V → K → Option V
  | [], _ => none
  | (k0, v0) :: rest, k => if k0 = k then some v0 else get rest k

/-- The assignment `m[k] = v`. -/
def set : GoMap K V → K → V → GoMap K V
  | [], k, v => [(k, v)]
  | (k0, v0) :: rest, k, v => if k0 = k then (k0, v) :: rest else (k0, v0) :: set rest k v

/-- The keys of the map. -/
def keys (m : GoMap K V) : List K := m.map Prod.fst

/-- The builtin `len(m)`. -/
def len (m : GoMap K V) : Nat := m.length

end GoMap

/-! ## Library functions of Go used by the program -/

/-- The predicate `unicode.IsSpace`. -/
def IsSpace (c : Char) : Bool :=
  let n := c.toNat
  (9 ≤ n && n ≤ 13) || n == 32 || n == 0x85 || n == 0xA0 || n == 0x1680 ||
  (0x2000 ≤ n && n ≤ 0x200A) || n == 0x2028 || n == 0x2029 || n == 0x202F ||
  n == 0x205F || n == 0x3000

/-- The function `strings.TrimSpace`: leading and trailing white space removed. -/
def TrimSpace (s : List Char) : List Char :=
  ((s.dropWhile IsSpace).reverse.dropWhile IsSpace).reverse

/-- The call `strings.Replace(s, "@", "\n", 1)`: the first `@` becomes a line break. -/
def ReplaceAt : List Char → List Char
  | [] => []
  | c :: cs => if c = '@' then '\n' :: cs else c :: ReplaceAt cs

/-- The call `bytes.Split(s, []byte(" "))`: the pieces of `s` between single spaces;
the result always has at least one piece. -/
def Split : List Char → List (List Char)
  | [] => [[]]
  | c :: cs =>
    if c = ' ' then [] :: Split cs
    else
      match Split cs with
      | [] => [[c]]
      | p :: ps => (c :: p) :: ps

/-! ## The graph -/

/-- The struct `ModuleGraph` (its `Reader` is the input handed to `Parse`). -/
structure ModuleGraph where
  Mods : GoMap (List Char) Nat
  Dependencies : GoMap Nat (List Nat)
  ModIdsMap : GoMap Nat (List Char)
deriving DecidableEq, Repr

/-- The constructor `NewModuleGraph`: three empty maps. -/
def NewModuleGraph : ModuleGraph := ⟨[], [], []⟩

/-- The index expression `m.Dependencies[id]`: the stored slice, nil when the key is absent. -/
def ModuleGraph.deps (m : ModuleGraph) (id : Nat) : List Nat :=
  (GoMap.get m.Dependencies id).getD []

/-! ## Parse -/

/-- The variables of the loop of `Parse`: the receiver and `serialID`. -/
structure ParseState where
  m : ModuleGraph
  serialID : Nat
deriving DecidableEq, Repr

/-- Lines 65 to 71 (and 73 to 79): look the label up, allot the next serial number when it is new.
Returns the identifier and the new state. -/
def lookupOrAlloc (st : ParseState) (label : List Char) : Nat × ParseState :=
  match GoMap.get st.m.Mods label with
  | some id => (id, st)
  | none =>
    (st.serialID,
     { m := { st.m with
              Mods := GoMap.set st.m.Mods label st.serialID
              ModIdsMap := GoMap.set st.m.ModIdsMap st.serialID label }
       serialID := st.serialID + 1 })

/-- Lines 65 to 81: record the edge from `mod` to `depMod`. -/
def addEdge (st : ParseState) (mod depMod : List Char) : ParseState :=
  let (modId, st1) := lookupOrAlloc st mod
  let (depModId, st2) := lookupOrAlloc st1 depMod
  { st2 with m := { st2.m with
      Dependencies := GoMap.set st2.m.Dependencies modId (st2.m.deps modId ++ [depModId]) } }

/-- Lines 59 to 63: the two labels of a line; `none` when `relation[1]` is out of range. -/
def lineLabels (relationBytes : List Char) : Option (List Char × List Char) :=
  match Split relationBytes with
  | r0 :: r1 :: _ => some (ReplaceAt (TrimSpace r0), ReplaceAt (TrimSpace r1))
  | _ => none

/-- How a call ends: it returns a value, or the Go run time stops the program. -/
inductive Outcome (α : Type) where
  | returned (a : α)
  | panicked
deriving DecidableEq, Repr

/-- The loop of `Parse`. `line` holds the bytes that `ReadBytes` has collected so far for
the current line; at the end of the input `ReadBytes` gives `io.EOF` and `Parse` returns
nil, whatever `line` holds. The result is the returned error and the receiver. -/
def parseLoop (st : ParseState) (line : List Char) :
    List Char → Outcome (Option (List Char) × ModuleGraph)
  | [] => .returned (none, st.m)
  | c :: rest =>
    if c = '\n' then
      match lineLabels (line ++ [c]) with
      | none => .panicked
      | some (mod, depMod) => parseLoop (addEdge st mod depMod) [] rest
    else parseLoop st (line ++ [c]) rest

/-- The method `Parse`, run on a new graph whose reader yields `input`. -/
def Parse (input : List Char) : Outcome (Option (List Char) × ModuleGraph) :=
  parseLoop ⟨NewModuleGraph, 1⟩ [] input

/-! ## Render -/

/-- Lines 106 to 111: walk one adjacency list; every identifier that is not yet in
`visited` is put there and appended to `tmpModIds`. The pair is `(visited, tmpModIds)`. -/
def visitDeps (acc : GoMap Nat Nat × List Nat) (dependenciesIds : List Nat) :
    GoMap Nat Nat × List Nat :=
  dependenciesIds.foldl
    (fun acc dId =>
      match GoMap.get acc.1 dId with
      | none => (GoMap.set acc.1 dId dId, acc.2 ++ [dId])
      | some _ => acc)
    acc

/-- Lines 103 to 112: one round of the traversal over the frontier `modIds`. -/
def expandFrontier (m : ModuleGraph) (visited : GoMap Nat Nat) (modIds : List Nat) :
    GoMap Nat Nat × List Nat :=
  modIds.foldl (fun acc mId => visitDeps acc (m.deps mId)) (visited, [])

/-- Lines 102 to 114: the loop `for len(modIds) > 0`. The fuel bounds the number of
rounds; `none` means the fuel ran out before the frontier was empty. -/
def bfsLoop (m : ModuleGraph) : Nat → GoMap Nat Nat → List Nat → Option (GoMap Nat Nat)
  | _, visited, [] => some visited
  | 0, _, _ :: _ => none
  | fuel + 1, visited, mId :: modIds =>
    let next := expandFrontier m visited (mId :: modIds)
    bfsLoop m fuel next.1 next.2

/-- Lines 98 to 114: the traversal from `modId`. -/
def bfs (fuel : Nat) (m : ModuleGraph) (modId : Nat) : Option (GoMap Nat Nat) :=
  bfsLoop m fuel [(modId, modId)] [modId]

/-- The two graphs that `Render` holds while it filters: the receiver and the new graph. -/
structure RenderState where
  m : ModuleGraph
  filterModuleGraph : ModuleGraph
deriving DecidableEq, Repr

/-- Lines 116 and 117: the body of the loop over `visited`. A key that `ModIdsMap`
lacks reads as the empty string. -/
def copyVisit (s : RenderState) (visit : Nat) : RenderState :=
  { s with filterModuleGraph :=
      { s.filterModuleGraph with
        Mods := GoMap.set s.filterModuleGraph.Mods
          ((GoMap.get s.m.ModIdsMap visit).getD []) visit
        Dependencies := GoMap.set s.filterModuleGraph.Dependencies visit (s.m.deps visit) } }

/-- Lines 96 and 115 to 118: build the new graph from the entries of `visited`, taken in
the order in which the `range` loop visits them. -/
def copyVisited (m : ModuleGraph) (visited : GoMap Nat Nat) : RenderState :=
  (visited.map Prod.snd).foldl copyVisit ⟨m, NewModuleGraph⟩

/-- The decimal text of an identifier, as the template prints it. -/
def fmtInt (n : Nat) : List Char := Nat.toDigits 10 n

/-- The entries of a map in the order in which `range` of `text/template` visits them:
by ascending key. -/
def rangeMods (mods : GoMap (List Char) Nat) : List (List Char × Nat) :=
  mods.insertionSort (fun a b => a.1 ≤ b.1)

/-- The entries of `dependencies` by ascending key. -/
def rangeDeps (deps : GoMap Nat (List Nat)) : List (Nat × List Nat) :=
  deps.insertionSort (fun a b => a.1 ≤ b.1)

/-- The node statement of line 18. -/
def nodeStmt (e : List Char × Nat) : List Char :=
  fmtInt e.2 ++ " [label=\"".toList ++ e.1 ++ "\"];\n".toList

/-- The edge statement of line 22. -/
def edgeStmt (modId depModId : Nat) : List Char :=
  fmtInt modId ++ " -> ".toList ++ fmtInt depModId ++ ";\n".toList

/-- The text that `graphTemplate` (lines 12 to 26) produces. -/
def execTemplate (mods : GoMap (List Char) Nat) (dependencies : GoMap Nat (List Nat))
    (direction : List Char) : List Char :=
  "digraph \x7b".toList ++
  (if direction = "horizontal".toList then "rankdir=LR;\n".toList else []) ++
  "node [shape=box];\n".toList ++
  ((rangeMods mods).map nodeStmt).flatten ++
  ((rangeDeps dependencies).map
    (fun e => (e.2.map (edgeStmt e.1)).flatten)).flatten ++
  "\x7d\n".toList

/-- Lines 127 to 138: choose the direction and run the template on `m`. -/
def renderGraph (m : ModuleGraph) : List Char :=
  let direction := if GoMap.len m.Dependencies > 15 then "horizontal".toList else []
  execTemplate m.Mods m.Dependencies direction

/-- What a call of `Render` leaves behind: the receiver object after the call, the graph
the local variable `m` points to when the template runs, the text written to `w`, and
the returned error. -/
structure RenderResult where
  receiver : ModuleGraph
  shown : ModuleGraph
  written : List Char
  err : Option (List Char)
deriving DecidableEq, Repr

/-- The text of the error of line 123: `fmt.Errorf("package %+v not existed", args)`,
where `args` is the trimmed argument. -/
def notExisted (args : List Char) : List Char :=
  "package ".toList ++ args ++ " not existed".toList

/-- The method `Render`; `none` when the fuel does not suffice for the traversal.
`order` rearranges the entries of `visited` into the order of the loop of line 115. -/
def Render (fuel : Nat) (order : GoMap Nat Nat → GoMap Nat Nat) (m : ModuleGraph)
    (args : List Char) : Option RenderResult :=
  let args := TrimSpace args
  if args ≠ [] then
    let pkg := ReplaceAt args
    match GoMap.get m.Mods pkg with
    | some modId =>
      match bfs fuel m modId with
      | none => none
      | some visited =>
        let s := copyVisited m (order visited)
        let cur := if GoMap.len visited > 0 then s.filterModuleGraph else s.m
        some { receiver := s.m, shown := cur, written := renderGraph cur, err := none }
    | none =>
      some { receiver := m, shown := m, written := [],
             err := some (notExisted args) }
  else
    some { receiver := m, shown := m, written := renderGraph m, err := none }

/-- The graph that `Parse` builds from `input`, when it returns nil. -/
def parsed (input : List Char) : Option ModuleGraph :=
  match Parse input with
  | .returned (none, m) => some m
  | _ => none

/-- The program of `main.go` on a pipe: parse, then render with the argument. -/
def run (fuel : Nat) (order : GoMap Nat Nat → GoMap Nat Nat) (input args : List Char) :
    Option RenderResult :=
  match parsed input with
  | some m => Render fuel order m args
  | none => none

/-! ## Notions used to state the properties -/

/-- A label as the input format writes it: no white space inside. -/
def IsLabel (l : List Char) : Prop := ∀ c ∈ l, IsSpace c = false

instance : DecidablePred IsLabel := fun l => by
  unfold IsLabel
  infer_instance

/-- The input text whose lines are `source dest\n` for the given pairs of labels. -/
def encodeLines (pairs : List (List Char × List Char)) : List Char :=
  (pairs.map (fun p => p.1 ++ ' ' :: (p.2 ++ ['\n']))).flatten

/-- The labels of the lines in reading order: source first, then destination. -/
def labelsOf (pairs : List (List Char × List Char)) : List (List Char) :=
  (pairs.map (fun p => [p.1, p.2])).flatten

/-- The position of the first occurrence of `x` in `l` (the length of `l` when absent). -/
def firstIndex {α : Type} [DecidableEq α] (x : α) (l : List α) : Nat := List.indexOf x l

/-- The list `acc` with `x` put at its end unless it is already there. -/
def addFirst {α : Type} [DecidableEq α] (acc : List α) (x : α) : List α :=
  if x ∈ acc then acc else acc ++ [x]

/-- The distinct elements of a list in the order of their first occurrence. -/
def firsts {α : Type} [DecidableEq α] (l : List α) : List α :=
  l.foldl addFirst []

/-- The state of `Parse` after the edges `P` have been recorded from state `st`. -/
def buildFrom (st : ParseState) (P : List (List Char × List Char)) : ParseState :=
  P.foldl (fun st p => addEdge st p.1 p.2) st

/-- Node `b` can be reached from node `a` along zero or more adjacency edges. -/
def Reaches (m : ModuleGraph) : Nat → Nat → Prop :=
  Relation.ReflTransGen (fun a b => b ∈ m.deps a)

/-- The document opens with the left-to-right layout statement. -/
def HasDirectionHint (doc : List Char) : Prop :=
  "digraph \x7brankdir=LR;\n".toList <+: doc

instance : DecidablePred HasDirectionHint := fun doc => by
  unfold HasDirectionHint
  infer_instance

/-- The label that line 116 reads for an identifier: `m.ModIdsMap[visit]`. -/
def ModuleGraph.label (m : ModuleGraph) (id : Nat) : List Char :=
  (GoMap.get m.ModIdsMap id).getD []

/-- The input of the scenarios of the specification: `a@1 b@1` and `b@1 c@1`. -/
def chainInput : List Char := "a@1 b@1\nb@1 c@1\n".toList

/-- The graph that `Parse` builds from `chainInput`. -/
def chainGraph : ModuleGraph :=
  { Mods := [("a\n1".toList, 1), ("b\n1".toList, 2), ("c\n1".toList, 3)]
    Dependencies := [(1, [2]), (2, [3])]
    ModIdsMap := [(1, "a\n1".toList), (2, "b\n1".toList), (3, "c\n1".toList)] }

/-- An input with a cycle: `a b` and `b a`. -/
def cycleInput : List Char := "a b\nb a\n".toList

/-- The graph that `Parse` builds from `cycleInput`. -/
def cycleGraph : ModuleGraph :=
  { Mods := [("a".toList, 1), ("b".toList, 2)]
    Dependencies := [(1, [2]), (2, [1])]
    ModIdsMap := [(1, "a".toList), (2, "b".toList)] }

/-- An input with one source and fifteen destinations. -/
def starInput : List Char :=
  "r a\nr b\nr c\nr d\nr e\nr f\nr g\nr h\nr i\nr j\nr k\nr l\nr m\nr n\nr o\n".toList

/-- The graph that `Parse` builds from `starInput`. -/
def starGraph : ModuleGraph :=
  { Mods := [("r".toList, 1), ("a".toList, 2), ("b".toList, 3), ("c".toList, 4),
      ("d".toList, 5), ("e".toList, 6), ("f".toList, 7), ("g".toList, 8), ("h".toList, 9),
      ("i".toList, 10), ("j".toList, 11), ("k".toList, 12), ("l".toList, 13),
      ("m".toList, 14), ("n".toList, 15), ("o".toList, 16)]
    Dependencies := [(1, [2, 3, 4, 5, 6, 7, 8, 9, 10, 11, 12, 13, 14, 15, 16])]
    ModIdsMap := [(1, "r".toList), (2, "a".toList), (3, "b".toList), (4, "c".toList),
      (5, "d".toList), (6, "e".toList), (7, "f".toList), (8, "g".toList), (9, "h".toList),
      (10, "i".toList), (11, "j".toList), (12, "k".toList), (13, "l".toList),
      (14, "m".toList), (15, "n".toList), (16, "o".toList)] }

/-- An input with sixteen sources, each depending on itself. -/
def loopsInput : List Char :=
  "a a\nb b\nc c\nd d\ne e\nf f\ng g\nh h\ni i\nj j\nk k\nl l\nm m\nn n\no o\np p\n".toList

/-- The graph that `Parse` builds from `loopsInput`. -/
def loopsGraph : ModuleGraph :=
  { Mods := [("a".toList, 1), ("b".toList, 2), ("c".toList, 3), ("d".toList, 4),
      ("e".toList, 5), ("f".toList, 6), ("g".toList, 7), ("h".toList, 8), ("i".toList, 9),
      ("j".toList, 10), ("k".toList, 11), ("l".toList, 12), ("m".toList, 13),
      ("n".toList, 14), ("o".toList, 15), ("p".toList, 16)]
    Dependencies := [(1, [1]), (2, [2]), (3, [3]), (4, [4]), (5, [5]), (6, [6]), (7, [7]),
      (8, [8]), (9, [9]), (10, [10]), (11, [11]), (12, [12]), (13, [13]), (14, [14]),
      (15, [15]), (16, [16])]
    ModIdsMap := [(1, "a".toList), (2, "b".toList), (3, "c".toList), (4, "d".toList),
      (5, "e".toList), (6, "f".toList), (7, "g".toList), (8, "h".toList), (9, "i".toList),
      (10, "j".toList), (11, "k".toList), (12, "l".toList), (13, "m".toList),
      (14, "n".toList), (15, "o".toList), (16, "p".toList)] }

/-- The map `visited` after the traversal of `starGraph` from identifier 1. -/
def starVisited : GoMap Nat Nat :=
  [(1, 1), (2, 2), (3, 3), (4, 4), (5, 5), (6, 6), (7, 7), (8, 8), (9, 9), (10, 10),
    (11, 11), (12, 12), (13, 13), (14, 14), (15, 15), (16, 16)]

/-- All identifiers stored in adjacency lists. -/
def allDests (m : ModuleGraph) : List Nat :=
  (m.Dependencies.map Prod.snd).flatten

/-- The node table of state `st` is the one that the distinct labels `D` get when they
are numbered from 1 in order. -/
def TableOf (D : List (List Char)) (st : ParseState) : Prop :=
  st.m.Mods = D.zip (List.range' 1 D.length) ∧
  st.m.ModIdsMap = (List.range' 1 D.length).zip D ∧
  st.serialID = D.length + 1

/-- The labels that `Parse` stores for the written pairs: the first `@` replaced. -/
def normPairs (pairs : List (List Char × List Char)) : List (List Char × List Char) :=
  pairs.map (fun p => (ReplaceAt p.1, ReplaceAt p.2))

/-- The identifier of label `x` in the numbering of `D`. -/
def idIn (D : List (List Char)) (x : List Char) : Nat := firstIndex x D + 1

/-- State `st` is what `Parse` holds after recording the edges `P`: the node table
numbers the distinct labels of `P` in order of first occurrence, and the adjacency list
of `s` lists the destinations of the edges of `P` with source `s`, in order. -/
def BuiltFrom (P : List (List Char × List Char)) (st : ParseState) : Prop :=
  TableOf (firsts (labelsOf P)) st ∧
  (GoMap.keys st.m.Dependencies).Nodup ∧
  (∀ s, s ∈ GoMap.keys st.m.Dependencies ↔
    ∃ p ∈ P, idIn (firsts (labelsOf P)) p.1 = s) ∧
  (∀ s, st.m.deps s =
    (P.filter (fun p => decide (idIn (firsts (labelsOf P)) p.1 = s))).map
      (fun p => idIn (firsts (labelsOf P)) p.2))

/-- The invariant of the traversal loop of `Render` started at `focus`: every entry of
`visited` maps an identifier to itself, the focus is visited, every visited identifier
can be reached from the focus, the frontier is visited, and every edge out of a visited
identifier that is not in the frontier leads to a visited identifier. -/
def BfsInv (m : ModuleGraph) (focus : Nat) (visited : GoMap Nat Nat)
    (frontier : List Nat) : Prop :=
  (∀ e ∈ visited, e.1 = e.2) ∧
  focus ∈ GoMap.keys visited ∧
  (∀ x ∈ GoMap.keys visited, Reaches m focus x) ∧
  (∀ x ∈ frontier, x ∈ GoMap.keys visited) ∧
  (∀ x ∈ GoMap.keys visited, x ∉ frontier → ∀ d ∈ m.deps x, d ∈ GoMap.keys visited)

/-- The consistency of a graph that `Parse` has built: the two halves of the node table
are inverse to each other, the keys of the maps are distinct, every key of
`Dependencies` is a node and has a non-empty adjacency list, and every identifier in an
adjacency list is a node. -/
def WellFormed (g : ModuleGraph) : Prop :=
  (∀ l i, GoMap.get g.Mods l = some i ↔ GoMap.get g.ModIdsMap i = some l) ∧
  (GoMap.keys g.ModIdsMap).Nodup ∧
  (GoMap.keys g.Dependencies).Nodup ∧
  (∀ s ∈ GoMap.keys g.Dependencies, s ∈ GoMap.keys g.ModIdsMap ∧ g.deps s ≠ []) ∧
  (∀ s d, d ∈ g.deps s → d ∈ GoMap.keys g.ModIdsMap)

/-! ## Tokens, white space and lines -/

/-- Lines 59 and 60: the two trimmed tokens of a line, before the `@` is replaced;
`none` when `relation[1]` is out of range. -/
def lineTokens (relationBytes : List Char) : Option (List Char × List Char) :=
  match Split relationBytes with
  | r0 :: r1 :: _ => some (TrimSpace r0, TrimSpace r1)
  | _ => none

/-- The pairs of tokens that the loop of `Parse` reads line by line; `line` holds the bytes
collected for the current line. The list ends at a line without a second token and
leaves out the bytes after the last line break, as `Parse` does. -/
def tokenPairs (line : List Char) : List Char → List (List Char × List Char)
  | [] => []
  | c :: rest =>
    if c = '\n' then
      match lineTokens (line ++ [c]) with
      | none => []
      | some t => t :: tokenPairs [] rest
    else tokenPairs (line ++ [c]) rest

/-- The label tokens that `Parse` reads from the input, in reading order. -/
def inputTokens (input : List Char) : List (List Char) :=
  labelsOf (tokenPairs [] input)

/-- A text made of white space only. -/
def IsBlank (s : List Char) : Prop := ∀ c ∈ s, IsSpace c = true

instance : DecidablePred IsBlank := fun s => by
  unfold IsBlank
  infer_instance

/-- The text `pre` is empty or ends with a line break: after it the reader of `Parse`
stands at the start of a line. -/
def EndsLine (pre : List Char) : Prop := pre = [] ∨ pre.getLast? = some '\n'

instance : DecidablePred EndsLine := fun pre => by
  unfold EndsLine
  infer_instance

/-- White space that holds neither the space character nor a line break (tabs, carriage
returns and the like). -/
def IsPad (w : List Char) : Prop := IsBlank w ∧ ' ' ∉ w ∧ '\n' ∉ w

instance : DecidablePred IsPad := fun w => by
  unfold IsPad
  infer_instance

/-- The edges `(source, destination)` in the order in which the two nested `range` loops
of the template (lines 20 to 24) visit them. -/
def edgeList (deps : GoMap Nat (List Nat)) : List (Nat × Nat) :=
  ((rangeDeps deps).map (fun e => e.2.map (fun d => (e.1, d)))).flatten

/-- The graph has no edge: every stored adjacency list is empty. -/
def ZeroEdges (m : ModuleGraph) : Prop := ∀ e ∈ m.Dependencies, e.2 = []

instance : DecidablePred ZeroEdges := fun m => by
  unfold ZeroEdges
  infer_instance

/-- The filtered graph of scenario 3: the node `c@1` alone, with an empty adjacency list. -/
def leafGraph : ModuleGraph :=
  { Mods := [("c\n1".toList, 3)], Dependencies := [(3, [])], ModIdsMap := [] }

/-- The loop of lines 102 to 114 with a record of its rounds: the second component lists
the values that `modIds` has at the start of each round, the successive frontiers. -/
def bfsTrace (m : ModuleGraph) :
    Nat → GoMap Nat Nat → List Nat → Option (GoMap Nat Nat × List (List Nat))
  | _, visited, [] => some (visited, [])
  | 0, _, _ :: _ => none
  | fuel + 1, visited, mId :: modIds =>
    let next := expandFrontier m visited (mId :: modIds)
    (bfsTrace m fuel next.1 next.2).map (fun r => (r.1, (mId :: modIds) :: r.2))

/-- An input that names two versions of a module and the module without version. -/
def versionsInput : List Char := "a@1 a@2\na a@1\n".toList

/-- The graph that `Parse` builds from `versionsInput`. -/
def versionsGraph : ModuleGraph :=
  { Mods := [("a\n1".toList, 1), ("a\n2".toList, 2), ("a".toList, 3)]
    Dependencies := [(1, [2]), (3, [1])]
    ModIdsMap := [(1, "a\n1".toList), (2, "a\n2".toList), (3, "a".toList)] }

/-! ## Facts about Go maps -/

namespace GoMap

variable {K V : Type} [DecidableEq K]

theorem get_set_self (m : GoMap K V) (k : K) (v : V) : get (set m k v) k = some v := by
  induction m with
  | nil => simp [set, get]
  | cons e rest ih =>
    obtain ⟨k0, v0⟩ := e
    by_cases h : k0 = k
    · simp [set, get, h]
    · simp [set, get, h, ih]

theorem get_set_ne (m : GoMap K V) (k k1 : K) (v : V) (h : k ≠ k1) :
    get (set m k v) k1 = get m k1 := by
  induction m with
  | nil => simp [set, get, h]
  | cons e rest ih =>
    obtain ⟨k0, v0⟩ := e
    by_cases h0 : k0 = k
    · subst h0
      simp [set, get, h]
    · simp [set, get, h0, ih]

theorem mem_keys_iff (m : GoMap K V) (k : K) : k ∈ keys m ↔ ∃ v, get m k = some v := by
  induction m with
  | nil => simp [keys, get]
  | cons e rest ih =>
    obtain ⟨k0, v0⟩ := e
    by_cases h0 : k0 = k
    · simp [keys, get, h0]
    · have ih1 : k ∈ List.map Prod.fst rest ↔ ∃ v, get rest k = some v := ih
      simp only [keys, List.map_cons, List.mem_cons, get, h0, if_false]
      rw [ih1]
      constructor
      · rintro (h | h)
        · exact absurd h.symm h0
        · exact h
      · exact fun h => Or.inr h

theorem not_mem_keys_iff (m : GoMap K V) (k : K) : k ∉ keys m ↔ get m k = none := by
  rw [mem_keys_iff]
  cases get m k <;> simp

theorem set_of_not_mem (m : GoMap K V) (k : K) (v : V) (h : k ∉ keys m) :
    set m k v = m ++ [(k, v)] := by
  induction m with
  | nil => simp [set]
  | cons e rest ih =>
    obtain ⟨k0, v0⟩ := e
    have h0 : k0 ≠ k := fun hk => h (by simp [keys, hk])
    have h1 : k ∉ keys rest := fun hk => h (by
      simp only [keys, List.map_cons, List.mem_cons]; exact Or.inr hk)
    simp [set, h0, ih h1]

theorem keys_set_of_mem (m : GoMap K V) (k : K) (v : V) (h : k ∈ keys m) :
    keys (set m k v) = keys m := by
  induction m with
  | nil => simp [keys] at h
  | cons e rest ih =>
    obtain ⟨k0, v0⟩ := e
    by_cases h0 : k0 = k
    · simp [set, keys, h0]
    · have h1 : k ∈ keys rest := by
        simp only [keys, List.map_cons, List.mem_cons] at h
        rcases h with h | h
        · exact absurd h.symm h0
        · exact h
      have := ih h1
      simp only [keys] at this
      simp [set, keys, h0, this]

theorem mem_keys_set (m : GoMap K V) (k k1 : K) (v : V) :
    k1 ∈ keys (set m k v) ↔ k1 = k ∨ k1 ∈ keys m := by
  by_cases h : k ∈ keys m
  · rw [keys_set_of_mem m k v h]
    constructor
    · exact fun h1 => Or.inr h1
    · rintro (h1 | h1)
      · exact h1 ▸ h
      · exact h1
  · rw [set_of_not_mem m k v h]
    simp only [keys, List.map_append, List.map_cons, List.map_nil, List.mem_append,
      List.mem_singleton]
    tauto

theorem nodup_keys_set (m : GoMap K V) (k : K) (v : V) (h : (keys m).Nodup) :
    (keys (set m k v)).Nodup := by
  by_cases hk : k ∈ keys m
  · rw [keys_set_of_mem m k v hk]; exact h
  · rw [set_of_not_mem m k v hk]
    simp only [keys, List.map_append, List.map_cons, List.map_nil]
    rw [List.nodup_append]
    refine ⟨h, List.nodup_singleton _, ?_⟩
    intro a ha hb
    simp only [List.mem_singleton] at hb
    exact hk (hb ▸ ha)

theorem len_set_of_mem (m : GoMap K V) (k : K) (v : V) (h : k ∈ keys m) :
    len (set m k v) = len m := by
  have := congrArg List.length (keys_set_of_mem m k v h)
  simpa [keys, len] using this

end GoMap

/-! ## Facts about first occurrences -/

theorem firsts_concat {α : Type} [DecidableEq α] (l : List α) (x : α) :
    firsts (l ++ [x]) = if x ∈ firsts l then firsts l else firsts l ++ [x] := by
  simp [firsts, addFirst, List.foldl_append]

theorem mem_firsts {α : Type} [DecidableEq α] (l : List α) (x : α) :
    x ∈ firsts l ↔ x ∈ l := by
  induction l using List.reverseRecOn with
  | nil => simp [firsts]
  | append_singleton l y ih =>
    rw [firsts_concat]
    by_cases hy : y ∈ firsts l
    · simp only [hy, if_true, List.mem_append, List.mem_singleton]
      constructor
      · exact fun h => Or.inl (ih.mp h)
      · rintro (h | h)
        · exact ih.mpr h
        · exact h ▸ hy
    · simp only [hy, if_false, List.mem_append, List.mem_singleton, ih]

theorem nodup_firsts {α : Type} [DecidableEq α] (l : List α) : (firsts l).Nodup := by
  induction l using List.reverseRecOn with
  | nil => simp [firsts]
  | append_singleton l y ih =>
    rw [firsts_concat]
    by_cases hy : y ∈ firsts l
    · simpa [hy] using ih
    · simp only [hy, if_false]
      rw [List.nodup_append]
      refine ⟨ih, List.nodup_singleton _, ?_⟩
      intro a ha hb
      simp only [List.mem_singleton] at hb
      exact hy (hb ▸ ha)

theorem length_firsts {α : Type} [DecidableEq α] (l : List α) :
    (firsts l).length = l.dedup.length := by
  rw [← List.card_toFinset, ← List.toFinset_card_of_nodup (nodup_firsts l)]
  congr 1
  ext x
  simp [mem_firsts]

theorem firstIndex_firsts_lt {α : Type} [DecidableEq α] (l : List α) (x y : α)
    (hx : x ∈ l) (hy : y ∈ l) :
    (firstIndex x (firsts l) < firstIndex y (firsts l) ↔
      firstIndex x l < firstIndex y l) := by
  unfold firstIndex
  induction l using List.reverseRecOn with
  | nil => simp at hx
  | append_singleton l z ih =>
    rw [firsts_concat]
    by_cases hz : z ∈ l
    · have hzf : z ∈ firsts l := (mem_firsts l z).mpr hz
      have hx1 : x ∈ l := by
        rcases List.mem_append.mp hx with h | h
        · exact h
        · exact (List.mem_singleton.mp h) ▸ hz
      have hy1 : y ∈ l := by
        rcases List.mem_append.mp hy with h | h
        · exact h
        · exact (List.mem_singleton.mp h) ▸ hz
      simp only [hzf, if_true]
      rw [List.indexOf_append_of_mem hx1, List.indexOf_append_of_mem hy1]
      exact ih hx1 hy1
    · have hzf : z ∉ firsts l := fun h => hz ((mem_firsts l z).mp h)
      simp only [hzf, if_false]
      have key : ∀ w, w ∈ l ++ [z] → (w ∈ l ∧
            List.indexOf w (firsts l ++ [z]) = List.indexOf w (firsts l) ∧
            List.indexOf w (l ++ [z]) = List.indexOf w l) ∨
          (w = z ∧ List.indexOf w (firsts l ++ [z]) = (firsts l).length ∧
            List.indexOf w (l ++ [z]) = l.length) := by
        intro w hw
        by_cases hwl : w ∈ l
        · left
          exact ⟨hwl, List.indexOf_append_of_mem ((mem_firsts l w).mpr hwl),
            List.indexOf_append_of_mem hwl⟩
        · right
          have hwz : w = z := by
            rcases List.mem_append.mp hw with h | h
            · exact absurd h hwl
            · exact List.mem_singleton.mp h
          subst hwz
          refine ⟨rfl, ?_, ?_⟩
          · rw [List.indexOf_append_of_not_mem hzf]; simp
          · rw [List.indexOf_append_of_not_mem hz]; simp
      rcases key x hx with ⟨hxl, e1, e2⟩ | ⟨_, e1, e2⟩ <;>
        rcases key y hy with ⟨hyl, f1, f2⟩ | ⟨_, f1, f2⟩
      · rw [e1, e2, f1, f2]; exact ih hxl hyl
      · rw [e1, e2, f1, f2]
        have h1 : List.indexOf x (firsts l) < (firsts l).length :=
          List.indexOf_lt_length.mpr ((mem_firsts l x).mpr hxl)
        have h2 : List.indexOf x l < l.length := List.indexOf_lt_length.mpr hxl
        exact ⟨fun _ => h2, fun _ => h1⟩
      · rw [e1, e2, f1, f2]
        have h1 : List.indexOf y (firsts l) ≤ (firsts l).length := List.indexOf_le_length
        have h2 : List.indexOf y l ≤ l.length := List.indexOf_le_length
        constructor <;> intro h <;> omega
      · rw [e1, e2, f1, f2]
        constructor <;> intro h <;> omega

theorem firstIndex_append_of_mem {α : Type} [DecidableEq α] (l l2 : List α) (x : α)
    (h : x ∈ l) : firstIndex x (l ++ l2) = firstIndex x l :=
  List.indexOf_append_of_mem h

theorem firstIndex_concat_self {α : Type} [DecidableEq α] (l : List α) (x : α)
    (h : x ∉ l) : firstIndex x (l ++ [x]) = l.length := by
  unfold firstIndex
  rw [List.indexOf_append_of_not_mem h]; simp

theorem firstIndex_lt_length {α : Type} [DecidableEq α] (l : List α) (x : α)
    (h : x ∈ l) : firstIndex x l < l.length :=
  List.indexOf_lt_length.mpr h

/-! ## The node table built by Parse -/

theorem get_zip_range {K : Type} [DecidableEq K] (D : List K) (s : Nat) (x : K) :
    GoMap.get (D.zip (List.range' s D.length)) x =
      if x ∈ D then some (s + firstIndex x D) else none := by
  unfold firstIndex
  induction D generalizing s with
  | nil => simp [GoMap.get]
  | cons d D ih =>
    show GoMap.get ((d, s) :: D.zip (List.range' (s + 1) D.length)) x = _
    by_cases h : d = x
    · subst h
      simp [GoMap.get]
    · have h1 : ¬ x = d := fun e => h e.symm
      simp only [GoMap.get, h, if_false]
      rw [ih (s + 1)]
      by_cases hx : x ∈ D
      · rw [if_pos hx, if_pos (List.mem_cons_of_mem _ hx), List.indexOf_cons_ne _ h]
        congr 1
        omega
      · rw [if_neg hx, if_neg]
        simp only [List.mem_cons, not_or]
        exact ⟨h1, hx⟩

theorem idIn_append (D E : List (List Char)) (x : List Char) (h : x ∈ D) :
    idIn (D ++ E) x = idIn D x := by
  simp [idIn, firstIndex_append_of_mem _ _ _ h]

theorem addFirst_eq_firsts {α : Type} [DecidableEq α] (l : List α) (x : α) :
    firsts (l ++ [x]) = addFirst (firsts l) x := by
  simp [firsts, List.foldl_append]

theorem mem_addFirst {α : Type} [DecidableEq α] (D : List α) (x y : α) :
    y ∈ addFirst D x ↔ y ∈ D ∨ y = x := by
  unfold addFirst
  by_cases h : x ∈ D
  · rw [if_pos h]
    constructor
    · exact fun h1 => Or.inl h1
    · rintro (h1 | h1)
      · exact h1
      · exact h1 ▸ h
  · rw [if_neg h]
    simp

theorem idIn_addFirst (D : List (List Char)) (x y : List Char) (h : x ∈ D) :
    idIn (addFirst D y) x = idIn D x := by
  unfold addFirst
  by_cases hy : y ∈ D
  · rw [if_pos hy]
  · rw [if_neg hy]
    exact idIn_append D [y] x h

theorem lookupOrAlloc_table (D : List (List Char)) (st : ParseState) (x : List Char)
    (h : TableOf D st) :
    TableOf (addFirst D x) (lookupOrAlloc st x).2 ∧
    (lookupOrAlloc st x).1 = idIn (addFirst D x) x ∧
    (lookupOrAlloc st x).2.m.Dependencies = st.m.Dependencies := by
  obtain ⟨h1, h2, h3⟩ := h
  have hget := get_zip_range D 1 x
  rw [← h1] at hget
  unfold addFirst
  by_cases hx : x ∈ D
  · rw [if_pos hx] at hget
    rw [if_pos hx]
    simp only [lookupOrAlloc, hget]
    refine ⟨⟨h1, h2, h3⟩, ?_, trivial⟩
    simp only [idIn]
    omega
  · rw [if_neg hx] at hget
    rw [if_neg hx]
    simp only [lookupOrAlloc, hget]
    have hk1 : x ∉ GoMap.keys st.m.Mods := by
      rw [h1]
      simp only [GoMap.keys]
      rw [List.map_fst_zip _ _ (by simp)]
      exact hx
    have hk2 : st.serialID ∉ GoMap.keys st.m.ModIdsMap := by
      rw [h2, h3]
      simp only [GoMap.keys]
      rw [List.map_fst_zip _ _ (by simp)]
      simp
      omega
    refine ⟨⟨?_, ?_, ?_⟩, ?_, trivial⟩
    · show GoMap.set st.m.Mods x st.serialID = _
      rw [GoMap.set_of_not_mem _ _ _ hk1, h1, h3]
      simp only [List.length_append, List.length_singleton]
      rw [List.range'_concat, List.zip_append (by simp)]
      simp [Nat.add_comm]
    · show GoMap.set st.m.ModIdsMap st.serialID x = _
      rw [GoMap.set_of_not_mem _ _ _ hk2, h2, h3]
      simp only [List.length_append, List.length_singleton]
      rw [List.range'_concat, List.zip_append (by simp)]
      simp [Nat.add_comm]
    · show st.serialID + 1 = _
      rw [h3]
      simp
    · simp only [idIn]
      rw [firstIndex_concat_self _ _ hx, h3]

theorem addEdge_table (D : List (List Char)) (st : ParseState) (a b : List Char)
    (h : TableOf D st) :
    TableOf (addFirst (addFirst D a) b) (addEdge st a b) ∧
    (addEdge st a b).m.Dependencies =
      GoMap.set st.m.Dependencies (idIn (addFirst (addFirst D a) b) a)
        (st.m.deps (idIn (addFirst (addFirst D a) b) a) ++
          [idIn (addFirst (addFirst D a) b) b]) := by
  obtain ⟨t1, i1, d1⟩ := lookupOrAlloc_table D st a h
  obtain ⟨t2, i2, d2⟩ := lookupOrAlloc_table _ (lookupOrAlloc st a).2 b t1
  have ha : a ∈ addFirst D a := (mem_addFirst D a a).mpr (Or.inr rfl)
  rw [idIn_addFirst _ a b ha]
  refine ⟨?_, ?_⟩
  · obtain ⟨u1, u2, u3⟩ := t2
    exact ⟨u1, u2, u3⟩
  · show GoMap.set (lookupOrAlloc (lookupOrAlloc st a).2 b).2.m.Dependencies
        (lookupOrAlloc st a).1
        ((lookupOrAlloc (lookupOrAlloc st a).2 b).2.m.deps (lookupOrAlloc st a).1 ++
          [(lookupOrAlloc (lookupOrAlloc st a).2 b).1]) = _
    simp only [ModuleGraph.deps]
    rw [d2, d1, i1, i2]

theorem labelsOf_concat (P : List (List Char × List Char)) (p : List Char × List Char) :
    labelsOf (P ++ [p]) = labelsOf P ++ [p.1, p.2] := by
  simp [labelsOf]

theorem mem_labelsOf (P : List (List Char × List Char)) (x : List Char) :
    x ∈ labelsOf P ↔ ∃ p ∈ P, x = p.1 ∨ x = p.2 := by
  induction P with
  | nil => simp [labelsOf]
  | cons q P ih =>
    have e : labelsOf (q :: P) = q.1 :: q.2 :: labelsOf P := by simp [labelsOf]
    rw [e]
    simp only [List.mem_cons, ih, exists_eq_or_imp]
    constructor
    · rintro (h | h | h)
      · exact Or.inl (Or.inl h)
      · exact Or.inl (Or.inr h)
      · exact Or.inr h
    · rintro ((h | h) | h)
      · exact Or.inl h
      · exact Or.inr (Or.inl h)
      · exact Or.inr (Or.inr h)

theorem firsts_labelsOf_concat (P : List (List Char × List Char))
    (p : List Char × List Char) :
    firsts (labelsOf (P ++ [p])) = addFirst (addFirst (firsts (labelsOf P)) p.1) p.2 := by
  rw [labelsOf_concat]
  have : labelsOf P ++ [p.1, p.2] = (labelsOf P ++ [p.1]) ++ [p.2] := by simp
  rw [this, addFirst_eq_firsts, addFirst_eq_firsts]

theorem buildFrom_concat (st : ParseState) (P : List (List Char × List Char))
    (p : List Char × List Char) :
    buildFrom st (P ++ [p]) = addEdge (buildFrom st P) p.1 p.2 := by
  simp [buildFrom, List.foldl_append]

theorem buildFrom_spec (P : List (List Char × List Char)) :
    BuiltFrom P (buildFrom ⟨NewModuleGraph, 1⟩ P) := by
  induction P using List.reverseRecOn with
  | nil =>
    refine ⟨⟨rfl, rfl, rfl⟩, ?_, ?_, ?_⟩
    · simp [buildFrom, NewModuleGraph, GoMap.keys]
    · intro s
      simp [buildFrom, NewModuleGraph, GoMap.keys]
    · intro s
      simp [buildFrom, NewModuleGraph, ModuleGraph.deps, GoMap.get]
  | append_singleton P p ih =>
    obtain ⟨ht, hn, hk, hd⟩ := ih
    obtain ⟨t2, d2⟩ := addEdge_table _ _ p.1 p.2 ht
    rw [buildFrom_concat]
    have hD := firsts_labelsOf_concat P p
    have hold : ∀ q ∈ P,
        idIn (firsts (labelsOf (P ++ [p]))) q.1 = idIn (firsts (labelsOf P)) q.1 ∧
        idIn (firsts (labelsOf (P ++ [p]))) q.2 = idIn (firsts (labelsOf P)) q.2 := by
      intro q hq
      have h1 : q.1 ∈ firsts (labelsOf P) :=
        (mem_firsts _ _).mpr ((mem_labelsOf P q.1).mpr ⟨q, hq, Or.inl rfl⟩)
      have h2 : q.2 ∈ firsts (labelsOf P) :=
        (mem_firsts _ _).mpr ((mem_labelsOf P q.2).mpr ⟨q, hq, Or.inr rfl⟩)
      rw [hD]
      refine ⟨?_, ?_⟩
      · rw [idIn_addFirst _ _ _ ((mem_addFirst _ _ _).mpr (Or.inl h1)), idIn_addFirst _ _ _ h1]
      · rw [idIn_addFirst _ _ _ ((mem_addFirst _ _ _).mpr (Or.inl h2)), idIn_addFirst _ _ _ h2]
    rw [← hD] at t2 d2
    refine ⟨t2, ?_, ?_, ?_⟩
    · rw [d2]
      exact GoMap.nodup_keys_set _ _ _ hn
    · intro s
      rw [d2, GoMap.mem_keys_set, hk s]
      constructor
      · rintro (h | ⟨q, hq, hs⟩)
        · exact ⟨p, by simp, h.symm⟩
        · exact ⟨q, by simp [hq], by rw [(hold q hq).1]; exact hs⟩
      · rintro ⟨q, hq, hs⟩
        rcases List.mem_append.mp hq with hq | hq
        · right
          exact ⟨q, hq, by rw [← (hold q hq).1]; exact hs⟩
        · left
          rw [List.mem_singleton.mp hq] at hs
          exact hs.symm
    · intro s
      have hfil : (P.filter (fun q => decide (idIn (firsts (labelsOf (P ++ [p]))) q.1 = s))).map
            (fun q => idIn (firsts (labelsOf (P ++ [p]))) q.2) =
          (P.filter (fun q => decide (idIn (firsts (labelsOf P)) q.1 = s))).map
            (fun q => idIn (firsts (labelsOf P)) q.2) := by
        rw [List.filter_congr (fun q hq => by rw [(hold q hq).1])]
        exact List.map_congr_left (fun q hq => (hold q (List.mem_filter.mp hq).1).2)
      rw [List.filter_append, List.map_append, hfil, ← hd s]
      show (GoMap.get (addEdge (buildFrom ⟨NewModuleGraph, 1⟩ P) p.1 p.2).m.Dependencies
        s).getD [] = _
      rw [d2]
      by_cases hs : idIn (firsts (labelsOf (P ++ [p]))) p.1 = s
      · rw [hs, GoMap.get_set_self]
        simp [hs]
      · rw [GoMap.get_set_ne _ _ _ _ hs]
        simp [hs, ModuleGraph.deps]

/-! ## Reading lines -/

theorem IsSpace_space : IsSpace ' ' = true := by decide

theorem IsSpace_newline : IsSpace '\n' = true := by decide

theorem IsLabel.no_space {l : List Char} (h : IsLabel l) : ' ' ∉ l := by
  intro hm
  have := h _ hm
  rw [IsSpace_space] at this
  exact Bool.noConfusion this

theorem IsLabel.no_newline {l : List Char} (h : IsLabel l) : '\n' ∉ l := by
  intro hm
  have := h _ hm
  rw [IsSpace_newline] at this
  exact Bool.noConfusion this

theorem Split_ne_nil (s : List Char) : Split s ≠ [] := by
  induction s with
  | nil => simp [Split]
  | cons c cs ih =>
    unfold Split
    by_cases h : c = ' '
    · simp [h]
    · simp only [h, if_false]
      cases hs : Split cs with
      | nil => simp
      | cons p ps => simp

theorem Split_no_space (a : List Char) (h : ' ' ∉ a) : Split a = [a] := by
  induction a with
  | nil => simp [Split]
  | cons c cs ih =>
    have hc : c ≠ ' ' := fun e => h (by simp [e])
    have hcs : ' ' ∉ cs := fun e => h (List.mem_cons_of_mem _ e)
    unfold Split
    simp only [hc, if_false, ih hcs]

theorem Split_append_space (a rest : List Char) (h : ' ' ∉ a) :
    Split (a ++ ' ' :: rest) = a :: Split rest := by
  induction a with
  | nil => simp [Split]
  | cons c cs ih =>
    have hc : c ≠ ' ' := fun e => h (by simp [e])
    have hcs : ' ' ∉ cs := fun e => h (List.mem_cons_of_mem _ e)
    show Split (c :: (cs ++ ' ' :: rest)) = _
    conv_lhs => unfold Split
    simp only [hc, if_false, ih hcs]

theorem dropWhile_IsLabel (a : List Char) (h : IsLabel a) : a.dropWhile IsSpace = a := by
  cases a with
  | nil => rfl
  | cons c cs =>
    have : IsSpace c = false := h c (by simp)
    simp [List.dropWhile, this]

theorem IsLabel.reverse {a : List Char} (h : IsLabel a) : IsLabel a.reverse :=
  fun c hc => h c (List.mem_reverse.mp hc)

theorem TrimSpace_label (a : List Char) (h : IsLabel a) : TrimSpace a = a := by
  unfold TrimSpace
  rw [dropWhile_IsLabel a h, dropWhile_IsLabel _ h.reverse, List.reverse_reverse]

theorem TrimSpace_label_newline (b : List Char) (h : IsLabel b) :
    TrimSpace (b ++ ['\n']) = b := by
  unfold TrimSpace
  cases b with
  | nil => simp [List.dropWhile, IsSpace_newline]
  | cons c cs =>
    have hc : IsSpace c = false := h c (by simp)
    have e1 : (c :: cs ++ ['\n']).dropWhile IsSpace = c :: cs ++ ['\n'] := by
      simp [List.dropWhile, hc]
    rw [e1]
    have e2 : (c :: cs ++ ['\n']).reverse = '\n' :: (c :: cs).reverse := by simp
    rw [e2]
    have e3 : ('\n' :: (c :: cs).reverse).dropWhile IsSpace =
        ((c :: cs).reverse).dropWhile IsSpace := by
      simp [List.dropWhile, IsSpace_newline]
    rw [e3, dropWhile_IsLabel _ h.reverse, List.reverse_reverse]

theorem lineLabels_wellformed (a b : List Char) (ha : IsLabel a) (hb : IsLabel b) :
    lineLabels (a ++ ' ' :: (b ++ ['\n'])) = some (ReplaceAt a, ReplaceAt b) := by
  unfold lineLabels
  rw [Split_append_space a _ ha.no_space, Split_no_space (b ++ ['\n'])]
  · simp only [TrimSpace_label a ha, TrimSpace_label_newline b hb]
  · intro hm
    rcases List.mem_append.mp hm with h | h
    · exact hb.no_space h
    · simp at h

theorem parseLoop_line (st : ParseState) (acc l rest : List Char) (h : '\n' ∉ l) :
    parseLoop st acc (l ++ '\n' :: rest) =
      match lineLabels (acc ++ l ++ ['\n']) with
      | none => .panicked
      | some (a, b) => parseLoop (addEdge st a b) [] rest := by
  induction l generalizing acc with
  | nil => simp [parseLoop]
  | cons c cs ih =>
    have hc : c ≠ '\n' := fun e => h (by simp [e])
    have hcs : '\n' ∉ cs := fun e => h (List.mem_cons_of_mem _ e)
    show parseLoop st acc (c :: (cs ++ '\n' :: rest)) = _
    rw [parseLoop]
    simp only [hc, if_false]
    rw [ih (acc ++ [c]) hcs]
    simp

theorem parseLoop_tail (st : ParseState) (acc l : List Char) (h : '\n' ∉ l) :
    parseLoop st acc l = .returned (none, st.m) := by
  induction l generalizing acc with
  | nil => simp [parseLoop]
  | cons c cs ih =>
    have hc : c ≠ '\n' := fun e => h (by simp [e])
    have hcs : '\n' ∉ cs := fun e => h (List.mem_cons_of_mem _ e)
    rw [parseLoop]
    simp only [hc, if_false]
    exact ih _ hcs

theorem parseLoop_returned (input : List Char) (st : ParseState) (acc : List Char)
    (e : Option (List Char)) (g : ModuleGraph)
    (h : parseLoop st acc input = .returned (e, g)) :
    e = none ∧ ∃ P, g = (buildFrom st P).m := by
  induction input generalizing st acc with
  | nil =>
    simp only [parseLoop, Outcome.returned.injEq, Prod.mk.injEq] at h
    exact ⟨h.1.symm, [], h.2.symm⟩
  | cons c cs ih =>
    rw [parseLoop] at h
    by_cases hc : c = '\n'
    · simp only [hc, if_true] at h
      cases hl : lineLabels (acc ++ ['\n']) with
      | none => simp [hl] at h
      | some ab =>
        obtain ⟨a, b⟩ := ab
        simp only [hl] at h
        obtain ⟨he, P, hP⟩ := ih _ _ h
        exact ⟨he, (a, b) :: P, by simpa [buildFrom] using hP⟩
    · simp only [hc, if_false] at h
      exact ih _ _ h

theorem parseLoop_encodeLines (pairs : List (List Char × List Char)) (st : ParseState)
    (h : ∀ p ∈ pairs, IsLabel p.1 ∧ IsLabel p.2) :
    parseLoop st [] (encodeLines pairs) =
      .returned (none, (buildFrom st (normPairs pairs)).m) := by
  induction pairs generalizing st with
  | nil => simp [encodeLines, parseLoop, buildFrom, normPairs]
  | cons p ps ih =>
    obtain ⟨ha, hb⟩ := h p (by simp)
    have e : encodeLines (p :: ps) = (p.1 ++ ' ' :: p.2) ++ '\n' :: encodeLines ps := by
      simp [encodeLines]
    have hn : '\n' ∉ p.1 ++ ' ' :: p.2 := by
      intro hm
      rcases List.mem_append.mp hm with h1 | h1
      · exact ha.no_newline h1
      · rcases List.mem_cons.mp h1 with h2 | h2
        · exact absurd h2 (by decide)
        · exact hb.no_newline h2
    rw [e, parseLoop_line st [] _ _ hn]
    have e2 : [] ++ (p.1 ++ ' ' :: p.2) ++ ['\n'] = p.1 ++ ' ' :: (p.2 ++ ['\n']) := by simp
    rw [e2, lineLabels_wellformed _ _ ha hb]
    simp only
    rw [ih _ (fun q hq => h q (List.mem_cons_of_mem _ hq))]
    simp [buildFrom, normPairs]

/-! ## Labels and identifiers -/

theorem ReplaceAt_injective (a b : List Char) (ha : '\n' ∉ a) (hb : '\n' ∉ b)
    (h : ReplaceAt a = ReplaceAt b) : a = b := by
  induction a generalizing b with
  | nil =>
    cases b with
    | nil => rfl
    | cons d ds =>
      unfold ReplaceAt at h
      by_cases hd : d = '@' <;> simp [hd] at h
  | cons c cs ih =>
    have hc : c ≠ '\n' := fun e => ha (by simp [e])
    have hcs : '\n' ∉ cs := fun e => ha (List.mem_cons_of_mem _ e)
    cases b with
    | nil =>
      unfold ReplaceAt at h
      by_cases hc1 : c = '@' <;> simp [hc1] at h
    | cons d ds =>
      have hd : d ≠ '\n' := fun e => hb (by simp [e])
      have hds : '\n' ∉ ds := fun e => hb (List.mem_cons_of_mem _ e)
      rw [ReplaceAt, ReplaceAt] at h
      by_cases hc1 : c = '@' <;> by_cases hd1 : d = '@'
      · simp only [hc1, hd1, if_true, List.cons.injEq, true_and] at h
        rw [hc1, hd1, h]
      · simp only [hc1, hd1, if_true, if_false, List.cons.injEq] at h
        exact absurd h.1.symm hd
      · simp only [hc1, hd1, if_true, if_false, List.cons.injEq] at h
        exact absurd h.1 hc
      · simp only [hc1, hd1, if_false, List.cons.injEq] at h
        rw [h.1, ih ds hcs hds h.2]

theorem firstIndex_map_injOn {α β : Type} [DecidableEq α] [DecidableEq β] (f : α → β)
    (l : List α) (x : α) (hinj : ∀ a ∈ l, f a = f x → a = x) :
    firstIndex (f x) (l.map f) = firstIndex x l := by
  unfold firstIndex
  induction l with
  | nil => simp
  | cons d l ih =>
    have ih1 := ih (fun a ha => hinj a (List.mem_cons_of_mem _ ha))
    by_cases hd : d = x
    · subst hd
      simp
    · have hfd : f d ≠ f x := fun e => hd (hinj d (by simp) e)
      rw [List.map_cons, List.indexOf_cons_ne _ hfd, List.indexOf_cons_ne _ hd, ih1]

theorem length_dedup_map_injOn {α β : Type} [DecidableEq α] [DecidableEq β] (f : α → β)
    (l : List α) (hinj : ∀ a ∈ l, ∀ b ∈ l, f a = f b → a = b) :
    (l.map f).dedup.length = l.dedup.length := by
  rw [← List.card_toFinset, ← List.card_toFinset]
  have e : (l.map f).toFinset = l.toFinset.image f := by
    ext y
    simp
  rw [e]
  apply Finset.card_image_of_injOn
  intro a ha b hb hab
  exact hinj a (List.mem_toFinset.mp ha) b (List.mem_toFinset.mp hb) hab

theorem labelsOf_normPairs (pairs : List (List Char × List Char)) :
    labelsOf (normPairs pairs) = (labelsOf pairs).map ReplaceAt := by
  induction pairs with
  | nil => simp [labelsOf, normPairs]
  | cons p ps ih =>
    have e1 : labelsOf (normPairs (p :: ps)) =
        ReplaceAt p.1 :: ReplaceAt p.2 :: labelsOf (normPairs ps) := by
      simp [labelsOf, normPairs]
    have e2 : labelsOf (p :: ps) = p.1 :: p.2 :: labelsOf ps := by simp [labelsOf]
    rw [e1, e2, ih]
    simp

theorem IsLabel_of_mem_labelsOf (pairs : List (List Char × List Char))
    (h : ∀ p ∈ pairs, IsLabel p.1 ∧ IsLabel p.2) (x : List Char) (hx : x ∈ labelsOf pairs) :
    IsLabel x := by
  obtain ⟨p, hp, hxp | hxp⟩ := (mem_labelsOf pairs x).mp hx
  · exact hxp ▸ (h p hp).1
  · exact hxp ▸ (h p hp).2

theorem get_Mods_of_table (D : List (List Char)) (st : ParseState) (h : TableOf D st)
    (x : List Char) :
    GoMap.get st.m.Mods x = if x ∈ D then some (idIn D x) else none := by
  rw [h.1, get_zip_range]
  by_cases hx : x ∈ D
  · simp only [hx, if_true, idIn]
    congr 1
    omega
  · simp [hx]

theorem get_zip_ge {K : Type} [DecidableEq K] (D : List K) (s : Nat) (x : K) (i : Nat)
    (h : GoMap.get (D.zip (List.range' s D.length)) x = some i) : x ∈ D ∧ s ≤ i := by
  rw [get_zip_range] at h
  by_cases hx : x ∈ D
  · simp only [hx, if_true, Option.some.injEq] at h
    exact ⟨hx, by omega⟩
  · simp [hx] at h

theorem get_zip_inverse {K : Type} [DecidableEq K] (D : List K) (hD : D.Nodup) (s : Nat)
    (x : K) (i : Nat) :
    GoMap.get (D.zip (List.range' s D.length)) x = some i ↔
      GoMap.get ((List.range' s D.length).zip D) i = some x := by
  induction D generalizing s with
  | nil => simp [GoMap.get]
  | cons d D ih =>
    obtain ⟨hd, hD1⟩ := List.nodup_cons.mp hD
    show GoMap.get ((d, s) :: D.zip (List.range' (s + 1) D.length)) x = some i ↔
      GoMap.get ((s, d) :: (List.range' (s + 1) D.length).zip D) i = some x
    by_cases h1 : d = x <;> by_cases h2 : s = i
    · simp [GoMap.get, h1, h2]
    · simp only [GoMap.get, h1, h2, if_true, if_false, Option.some.injEq, false_iff]
      intro hc
      have := (ih hD1 (s + 1)).mpr hc
      exact hd (h1 ▸ (get_zip_ge D (s + 1) x i this).1)
    · simp only [GoMap.get, h1, h2, if_true, if_false, Option.some.injEq, iff_false]
      intro hc
      have := (get_zip_ge D _ x i hc).2
      omega
    · simp only [GoMap.get, h1, h2, if_false]
      exact ih hD1 (s + 1)

theorem table_bijection (D : List (List Char)) (hD : D.Nodup) (st : ParseState)
    (h : TableOf D st) (l : List Char) (i : Nat) :
    GoMap.get st.m.Mods l = some i ↔ GoMap.get st.m.ModIdsMap i = some l := by
  rw [h.1, h.2.1]
  exact get_zip_inverse D hD 1 l i

theorem keys_Mods_of_table (D : List (List Char)) (st : ParseState) (h : TableOf D st) :
    GoMap.keys st.m.Mods = D := by
  rw [h.1]
  simp only [GoMap.keys]
  exact List.map_fst_zip _ _ (by simp)

theorem keys_ModIdsMap_of_table (D : List (List Char)) (st : ParseState) (h : TableOf D st) :
    GoMap.keys st.m.ModIdsMap = List.range' 1 D.length := by
  rw [h.2.1]
  simp only [GoMap.keys]
  exact List.map_fst_zip _ _ (by simp)

theorem sum_length_set_append (m : GoMap Nat (List Nat)) (k d : Nat) :
    ((GoMap.set m k ((GoMap.get m k).getD [] ++ [d])).map (fun e => e.2.length)).sum =
      (m.map (fun e => e.2.length)).sum + 1 := by
  induction m with
  | nil => simp [GoMap.set, GoMap.get]
  | cons e rest ih =>
    obtain ⟨k0, v0⟩ := e
    by_cases h : k0 = k
    · simp [GoMap.set, GoMap.get, h]
      omega
    · simp only [GoMap.set, GoMap.get, h, if_false, List.map_cons, List.sum_cons, ih]
      omega

theorem buildFrom_total (P : List (List Char × List Char)) :
    ((buildFrom ⟨NewModuleGraph, 1⟩ P).m.Dependencies.map (fun e => e.2.length)).sum =
      P.length := by
  induction P using List.reverseRecOn with
  | nil => simp [buildFrom, NewModuleGraph]
  | append_singleton P p ih =>
    obtain ⟨_, d2⟩ := addEdge_table _ _ p.1 p.2 (buildFrom_spec P).1
    rw [buildFrom_concat, d2]
    simp only [ModuleGraph.deps]
    rw [sum_length_set_append, ih]
    simp

theorem Parse_encodeLines (pairs : List (List Char × List Char))
    (h : ∀ p ∈ pairs, IsLabel p.1 ∧ IsLabel p.2) :
    Parse (encodeLines pairs) =
      .returned (none, (buildFrom ⟨NewModuleGraph, 1⟩ (normPairs pairs)).m) :=
  parseLoop_encodeLines pairs _ h

theorem ReplaceAt_injOn_labels (pairs : List (List Char × List Char))
    (h : ∀ p ∈ pairs, IsLabel p.1 ∧ IsLabel p.2) :
    ∀ a ∈ labelsOf pairs, ∀ b ∈ labelsOf pairs, ReplaceAt a = ReplaceAt b → a = b :=
  fun a ha b hb hab =>
    ReplaceAt_injective a b (IsLabel_of_mem_labelsOf pairs h a ha).no_newline
      (IsLabel_of_mem_labelsOf pairs h b hb).no_newline hab

/-! ## Claims about Parse -/

/-- C1. On an input made of lines `source dest\n` whose labels hold no white space,
`Parse` returns without error and its node table is a bijection: `Mods` and `ModIdsMap`
are inverse to each other, the keys of `Mods` are distinct and are exactly the labels of
the input with their first `@` replaced by a line break, the identifiers are exactly
`1..n` for `n` distinct labels, and a label has the smaller identifier exactly when its
first occurrence (source before destination within a line) comes earlier. -/
theorem Parse_node_table_bijection (pairs : List (List Char × List Char))
    (h : ∀ p ∈ pairs, IsLabel p.1 ∧ IsLabel p.2) :
    ∃ g, Parse (encodeLines pairs) = .returned (none, g) ∧
      (∀ l i, GoMap.get g.Mods l = some i ↔ GoMap.get g.ModIdsMap i = some l) ∧
      (GoMap.keys g.Mods).Nodup ∧ (GoMap.keys g.ModIdsMap).Nodup ∧
      (∀ k, k ∈ GoMap.keys g.Mods ↔ ∃ x ∈ labelsOf pairs, k = ReplaceAt x) ∧
      (∀ i, i ∈ GoMap.keys g.ModIdsMap ↔ 1 ≤ i ∧ i ≤ (labelsOf pairs).dedup.length) ∧
      (∀ x ∈ labelsOf pairs, ∀ y ∈ labelsOf pairs, ∃ i j,
        GoMap.get g.Mods (ReplaceAt x) = some i ∧ GoMap.get g.Mods (ReplaceAt y) = some j ∧
        (i < j ↔ firstIndex x (labelsOf pairs) < firstIndex y (labelsOf pairs))) := by
  refine ⟨_, Parse_encodeLines pairs h, ?_⟩
  obtain ⟨ht, -, -, -⟩ := buildFrom_spec (normPairs pairs)
  have hinj := ReplaceAt_injOn_labels pairs h
  rw [labelsOf_normPairs] at ht
  have hnd := nodup_firsts ((labelsOf pairs).map ReplaceAt)
  refine ⟨table_bijection _ hnd _ ht, ?_, ?_, ?_, ?_, ?_⟩
  · rw [keys_Mods_of_table _ _ ht]; exact hnd
  · rw [keys_ModIdsMap_of_table _ _ ht]; exact List.nodup_range' 1 _
  · intro k
    rw [keys_Mods_of_table _ _ ht, mem_firsts, List.mem_map]
    constructor
    · rintro ⟨x, hx, rfl⟩
      exact ⟨x, hx, rfl⟩
    · rintro ⟨x, hx, rfl⟩
      exact ⟨x, hx, rfl⟩
  · intro i
    rw [keys_ModIdsMap_of_table _ _ ht, length_firsts,
      length_dedup_map_injOn ReplaceAt _ hinj, List.mem_range'_1]
    omega
  · intro x hx y hy
    have hx1 : ReplaceAt x ∈ firsts ((labelsOf pairs).map ReplaceAt) :=
      (mem_firsts _ _).mpr (List.mem_map_of_mem _ hx)
    have hy1 : ReplaceAt y ∈ firsts ((labelsOf pairs).map ReplaceAt) :=
      (mem_firsts _ _).mpr (List.mem_map_of_mem _ hy)
    refine ⟨idIn (firsts ((labelsOf pairs).map ReplaceAt)) (ReplaceAt x),
      idIn (firsts ((labelsOf pairs).map ReplaceAt)) (ReplaceAt y), ?_, ?_, ?_⟩
    · rw [get_Mods_of_table _ _ ht, if_pos hx1]
    · rw [get_Mods_of_table _ _ ht, if_pos hy1]
    · simp only [idIn, Nat.add_lt_add_iff_right]
      rw [firstIndex_firsts_lt _ _ _ (List.mem_map_of_mem _ hx) (List.mem_map_of_mem _ hy),
        firstIndex_map_injOn ReplaceAt _ x (fun a ha => hinj a ha x hx),
        firstIndex_map_injOn ReplaceAt _ y (fun a ha => hinj a ha y hy)]

/-- Witness of C1 on the two lines `a@1 b@1` and `b@1 c@1`. -/
theorem Parse_node_table_bijection_witness :
    (∀ p ∈ [("a@1".toList, "b@1".toList), ("b@1".toList, "c@1".toList)],
      IsLabel p.1 ∧ IsLabel p.2) ∧
    ∃ g, Parse (encodeLines [("a@1".toList, "b@1".toList), ("b@1".toList, "c@1".toList)]) =
        .returned (none, g) ∧
      (∀ l i, GoMap.get g.Mods l = some i ↔ GoMap.get g.ModIdsMap i = some l) :=
  ⟨by decide,
    (Parse_node_table_bijection
      [("a@1".toList, "b@1".toList), ("b@1".toList, "c@1".toList)] (by decide)).imp
      (fun _ hg => ⟨hg.1, hg.2.1⟩)⟩

/-- C2. On an input made of lines `source dest\n` whose labels hold no white space, the
adjacency list of every identifier `s` is the sequence of the destination identifiers
of the lines whose source has identifier `s`, in input order and with repeated edges
kept; the keys of `Dependencies` are distinct and are the identifiers of the sources;
the adjacency lists hold as many entries in total as the input has lines. -/
theorem Parse_adjacency_lists (pairs : List (List Char × List Char))
    (h : ∀ p ∈ pairs, IsLabel p.1 ∧ IsLabel p.2) :
    ∃ g, Parse (encodeLines pairs) = .returned (none, g) ∧
      (∀ s, g.deps s =
        (pairs.filter (fun p => decide (GoMap.get g.Mods (ReplaceAt p.1) = some s))).map
          (fun p => (GoMap.get g.Mods (ReplaceAt p.2)).getD 0)) ∧
      (∀ p ∈ pairs, (GoMap.get g.Mods (ReplaceAt p.1)).isSome ∧
        (GoMap.get g.Mods (ReplaceAt p.2)).isSome) ∧
      (GoMap.keys g.Dependencies).Nodup ∧
      (∀ s, s ∈ GoMap.keys g.Dependencies ↔
        ∃ p ∈ pairs, GoMap.get g.Mods (ReplaceAt p.1) = some s) ∧
      (g.Dependencies.map (fun e => e.2.length)).sum = pairs.length := by
  refine ⟨_, Parse_encodeLines pairs h, ?_⟩
  obtain ⟨ht, hn, hk, hd⟩ := buildFrom_spec (normPairs pairs)
  have hmem : ∀ p ∈ pairs, ReplaceAt p.1 ∈ firsts (labelsOf (normPairs pairs)) ∧
      ReplaceAt p.2 ∈ firsts (labelsOf (normPairs pairs)) := by
    intro p hp
    have hq : (ReplaceAt p.1, ReplaceAt p.2) ∈ normPairs pairs :=
      List.mem_map.mpr ⟨p, hp, rfl⟩
    exact ⟨(mem_firsts _ _).mpr ((mem_labelsOf _ _).mpr ⟨_, hq, Or.inl rfl⟩),
      (mem_firsts _ _).mpr ((mem_labelsOf _ _).mpr ⟨_, hq, Or.inr rfl⟩)⟩
  have hget1 : ∀ p ∈ pairs, GoMap.get (buildFrom ⟨NewModuleGraph, 1⟩ (normPairs pairs)).m.Mods
      (ReplaceAt p.1) = some (idIn (firsts (labelsOf (normPairs pairs))) (ReplaceAt p.1)) :=
    fun p hp => by rw [get_Mods_of_table _ _ ht, if_pos (hmem p hp).1]
  have hget2 : ∀ p ∈ pairs, GoMap.get (buildFrom ⟨NewModuleGraph, 1⟩ (normPairs pairs)).m.Mods
      (ReplaceAt p.2) = some (idIn (firsts (labelsOf (normPairs pairs))) (ReplaceAt p.2)) :=
    fun p hp => by rw [get_Mods_of_table _ _ ht, if_pos (hmem p hp).2]
  have htot := buildFrom_total (normPairs pairs)
  generalize firsts (labelsOf (normPairs pairs)) = D at *
  generalize (buildFrom ⟨NewModuleGraph, 1⟩ (normPairs pairs)).m = g at *
  refine ⟨?_, ?_, hn, ?_, ?_⟩
  · intro s
    rw [hd s, normPairs, List.filter_map, List.map_map]
    have e : pairs.filter ((fun p => decide (idIn D p.1 = s)) ∘
          fun p => (ReplaceAt p.1, ReplaceAt p.2)) =
        pairs.filter (fun p => decide (GoMap.get g.Mods (ReplaceAt p.1) = some s)) := by
      apply List.filter_congr
      intro p hp
      simp only [Function.comp, hget1 p hp, Option.some.injEq]
    rw [e]
    apply List.map_congr_left
    intro p hp
    simp only [Function.comp, hget2 p (List.mem_filter.mp hp).1, Option.getD_some]
  · intro p hp
    rw [hget1 p hp, hget2 p hp]
    exact ⟨rfl, rfl⟩
  · intro s
    rw [hk s]
    constructor
    · rintro ⟨q, hq, hs⟩
      obtain ⟨p, hp, rfl⟩ := List.mem_map.mp hq
      exact ⟨p, hp, by rw [hget1 p hp, ← hs]⟩
    · rintro ⟨p, hp, hs⟩
      rw [hget1 p hp] at hs
      exact ⟨_, List.mem_map.mpr ⟨p, hp, rfl⟩, Option.some.inj hs⟩
  · rw [htot]
    simp [normPairs]

/-- Witness of C2 on an input with a repeated edge. -/
theorem Parse_adjacency_lists_witness :
    (∀ p ∈ [("a".toList, "b".toList), ("a".toList, "b".toList)],
      IsLabel p.1 ∧ IsLabel p.2) ∧
    ∃ g, Parse (encodeLines [("a".toList, "b".toList), ("a".toList, "b".toList)]) =
        .returned (none, g) ∧
      (g.Dependencies.map (fun e => e.2.length)).sum = 2 :=
  ⟨by decide,
    (Parse_adjacency_lists
      [("a".toList, "b".toList), ("a".toList, "b".toList)] (by decide)).imp
      (fun _ hg => ⟨hg.1, hg.2.2.2.2.2⟩)⟩

/-- C3, the code on a line without a second token. When a line holds no space,
`relation[1]` is out of range: `Parse` stops with a run-time fault and returns no error;
the lines after it are never read. -/
theorem Parse_line_without_space_panics (line rest : List Char) (h1 : ' ' ∉ line)
    (h2 : '\n' ∉ line) : Parse (line ++ '\n' :: rest) = .panicked := by
  unfold Parse
  rw [parseLoop_line _ _ _ _ h2]
  have hs : ' ' ∉ line ++ ['\n'] := by
    intro hm
    simp only [List.mem_append, List.mem_singleton] at hm
    rcases hm with hm | hm
    · exact h1 hm
    · exact absurd hm (by decide)
  rw [List.nil_append]
  unfold lineLabels
  rw [Split_no_space _ hs]

/-- Witness of C3 on the input `a\n`. -/
theorem Parse_line_without_space_panics_witness :
    Parse "a\n".toList = .panicked :=
  Parse_line_without_space_panics "a".toList [] (by decide) (by decide)

/-- C4, the code on an unterminated last line. The bytes after the last line break are
dropped: `Parse` returns the same graph, without error, as on the input cut after its
last line break. -/
theorem Parse_drops_unterminated_line (input tail : List Char) (h : '\n' ∉ tail) :
    Parse (input ++ tail) = Parse input := by
  unfold Parse
  generalize (⟨NewModuleGraph, 1⟩ : ParseState) = st
  generalize ([] : List Char) = acc
  induction input generalizing st acc with
  | nil =>
    rw [List.nil_append, parseLoop_tail st acc tail h]
    rfl
  | cons c cs ih =>
    rw [List.cons_append, parseLoop, parseLoop]
    by_cases hc : c = '\n'
    · simp only [hc, if_true]
      cases lineLabels (acc ++ ['\n']) with
      | none => rfl
      | some ab => exact ih _ _
    · simp only [hc, if_false]
      exact ih _ _

/-- Witness of C4: the last line `b@1 c@1` without line break leaves no trace. -/
theorem Parse_drops_unterminated_line_witness :
    Parse ("a@1 b@1\n".toList ++ "b@1 c@1".toList) = Parse "a@1 b@1\n".toList ∧
    Parse "a@1 b@1\nb@1 c@1\n".toList ≠ Parse "a@1 b@1\n".toList :=
  ⟨Parse_drops_unterminated_line "a@1 b@1\n".toList "b@1 c@1".toList (by decide),
    by decide⟩

/-! ## The traversal -/

theorem GoMap.mem_set_entry {K V : Type} [DecidableEq K] (m : GoMap K V) (k : K) (v : V)
    (e : K × V) (h : e ∈ GoMap.set m k v) : e ∈ m ∨ e = (k, v) := by
  induction m with
  | nil =>
    simp only [GoMap.set, List.mem_singleton] at h
    exact Or.inr h
  | cons e0 rest ih =>
    obtain ⟨k0, v0⟩ := e0
    by_cases h0 : k0 = k
    · simp only [GoMap.set, h0, if_true, List.mem_cons] at h
      rcases h with h | h
      · exact Or.inr h
      · exact Or.inl (List.mem_cons_of_mem _ h)
    · simp only [GoMap.set, h0, if_false, List.mem_cons] at h
      rcases h with h | h
      · exact Or.inl (h ▸ List.mem_cons_self _ _)
      · rcases ih h with h1 | h1
        · exact Or.inl (List.mem_cons_of_mem _ h1)
        · exact Or.inr h1

theorem visitDeps_cons (acc : GoMap Nat Nat × List Nat) (d : Nat) (ds : List Nat) :
    visitDeps acc (d :: ds) =
      visitDeps (match GoMap.get acc.1 d with
        | none => (GoMap.set acc.1 d d, acc.2 ++ [d])
        | some _ => acc) ds := rfl

theorem mem_keys_visitDeps (ds : List Nat) (acc : GoMap Nat Nat × List Nat) (x : Nat) :
    x ∈ GoMap.keys (visitDeps acc ds).1 ↔ x ∈ GoMap.keys acc.1 ∨ x ∈ ds := by
  induction ds generalizing acc with
  | nil => simp [visitDeps]
  | cons d ds ih =>
    rw [visitDeps_cons, ih]
    cases hg : GoMap.get acc.1 d with
    | none =>
      simp only [GoMap.mem_keys_set, List.mem_cons]
      tauto
    | some v =>
      have hd : d ∈ GoMap.keys acc.1 := (GoMap.mem_keys_iff _ _).mpr ⟨v, hg⟩
      simp only [List.mem_cons]
      constructor
      · rintro (h | h)
        · exact Or.inl h
        · exact Or.inr (Or.inr h)
      · rintro (h | h | h)
        · exact Or.inl h
        · exact Or.inl (h ▸ hd)
        · exact Or.inr h

theorem mem_tmp_visitDeps (ds : List Nat) (acc : GoMap Nat Nat × List Nat) (x : Nat) :
    x ∈ (visitDeps acc ds).2 ↔ x ∈ acc.2 ∨ (x ∈ ds ∧ x ∉ GoMap.keys acc.1) := by
  induction ds generalizing acc with
  | nil => simp [visitDeps]
  | cons d ds ih =>
    rw [visitDeps_cons, ih]
    cases hg : GoMap.get acc.1 d with
    | none =>
      have hd : d ∉ GoMap.keys acc.1 := (GoMap.not_mem_keys_iff _ _).mpr hg
      simp only [GoMap.mem_keys_set, List.mem_cons, List.mem_append, List.not_mem_nil,
        or_false]
      constructor
      · rintro ((h | h) | ⟨h1, h2⟩)
        · exact Or.inl h
        · exact Or.inr ⟨Or.inl h, h ▸ hd⟩
        · exact Or.inr ⟨Or.inr h1, fun hx => h2 (Or.inr hx)⟩
      · rintro (h | ⟨h1 | h1, h2⟩)
        · exact Or.inl (Or.inl h)
        · exact Or.inl (Or.inr h1)
        · by_cases hxd : x = d
          · exact Or.inl (Or.inr hxd)
          · exact Or.inr ⟨h1, fun hx => hx.elim hxd h2⟩
    | some v =>
      have hd : d ∈ GoMap.keys acc.1 := (GoMap.mem_keys_iff _ _).mpr ⟨v, hg⟩
      simp only [List.mem_cons]
      constructor
      · rintro (h | ⟨h1, h2⟩)
        · exact Or.inl h
        · exact Or.inr ⟨Or.inr h1, h2⟩
      · rintro (h | ⟨h1 | h1, h2⟩)
        · exact Or.inl h
        · exact absurd (h1 ▸ hd) h2
        · exact Or.inr ⟨h1, h2⟩

theorem diag_visitDeps (ds : List Nat) (acc : GoMap Nat Nat × List Nat)
    (h : ∀ e ∈ acc.1, e.1 = e.2) : ∀ e ∈ (visitDeps acc ds).1, e.1 = e.2 := by
  induction ds generalizing acc with
  | nil => simpa [visitDeps] using h
  | cons d ds ih =>
    rw [visitDeps_cons]
    apply ih
    cases hg : GoMap.get acc.1 d with
    | none =>
      intro e he
      rcases GoMap.mem_set_entry _ _ _ _ he with h1 | h1
      · exact h e h1
      · rw [h1]
    | some v => exact h

theorem expandFrontier_cons (m : ModuleGraph) (acc : GoMap Nat Nat × List Nat) (f : Nat)
    (fr : List Nat) :
    List.foldl (fun acc mId => visitDeps acc (m.deps mId)) acc (f :: fr) =
      List.foldl (fun acc mId => visitDeps acc (m.deps mId)) (visitDeps acc (m.deps f)) fr :=
  rfl

theorem mem_keys_foldl_visitDeps (m : ModuleGraph) (fr : List Nat)
    (acc : GoMap Nat Nat × List Nat) (x : Nat) :
    x ∈ GoMap.keys (List.foldl (fun acc mId => visitDeps acc (m.deps mId)) acc fr).1 ↔
      x ∈ GoMap.keys acc.1 ∨ ∃ f ∈ fr, x ∈ m.deps f := by
  induction fr generalizing acc with
  | nil => simp
  | cons f fr ih =>
    rw [expandFrontier_cons, ih, mem_keys_visitDeps]
    simp only [List.mem_cons, exists_eq_or_imp]
    tauto

theorem mem_tmp_foldl_visitDeps (m : ModuleGraph) (fr : List Nat)
    (acc : GoMap Nat Nat × List Nat) (x : Nat) :
    x ∈ (List.foldl (fun acc mId => visitDeps acc (m.deps mId)) acc fr).2 ↔
      x ∈ acc.2 ∨ (x ∉ GoMap.keys acc.1 ∧ ∃ f ∈ fr, x ∈ m.deps f) := by
  induction fr generalizing acc with
  | nil => simp
  | cons f fr ih =>
    rw [expandFrontier_cons, ih, mem_keys_visitDeps, mem_tmp_visitDeps]
    simp only [List.mem_cons, exists_eq_or_imp]
    tauto

theorem diag_foldl_visitDeps (m : ModuleGraph) (fr : List Nat)
    (acc : GoMap Nat Nat × List Nat) (h : ∀ e ∈ acc.1, e.1 = e.2) :
    ∀ e ∈ (List.foldl (fun acc mId => visitDeps acc (m.deps mId)) acc fr).1, e.1 = e.2 := by
  induction fr generalizing acc with
  | nil => simpa using h
  | cons f fr ih =>
    rw [expandFrontier_cons]
    exact ih _ (diag_visitDeps _ _ h)

theorem mem_keys_expandFrontier (m : ModuleGraph) (visited : GoMap Nat Nat)
    (fr : List Nat) (x : Nat) :
    x ∈ GoMap.keys (expandFrontier m visited fr).1 ↔
      x ∈ GoMap.keys visited ∨ ∃ f ∈ fr, x ∈ m.deps f :=
  mem_keys_foldl_visitDeps m fr (visited, []) x

theorem mem_tmp_expandFrontier (m : ModuleGraph) (visited : GoMap Nat Nat)
    (fr : List Nat) (x : Nat) :
    x ∈ (expandFrontier m visited fr).2 ↔
      x ∉ GoMap.keys visited ∧ ∃ f ∈ fr, x ∈ m.deps f := by
  have := mem_tmp_foldl_visitDeps m fr (visited, []) x
  simpa [expandFrontier] using this

theorem bfsLoop_succ (m : ModuleGraph) (fuel : Nat) (visited : GoMap Nat Nat) (f : Nat)
    (fr : List Nat) :
    bfsLoop m (fuel + 1) visited (f :: fr) =
      bfsLoop m fuel (expandFrontier m visited (f :: fr)).1
        (expandFrontier m visited (f :: fr)).2 := rfl

theorem bfsLoop_nil (m : ModuleGraph) (fuel : Nat) (visited : GoMap Nat Nat) :
    bfsLoop m fuel visited [] = some visited := by
  cases fuel <;> rfl

theorem BfsInv_expand (m : ModuleGraph) (focus : Nat) (visited : GoMap Nat Nat)
    (fr : List Nat) (h : BfsInv m focus visited fr) :
    BfsInv m focus (expandFrontier m visited fr).1 (expandFrontier m visited fr).2 := by
  obtain ⟨h1, h2, h3, h4, h5⟩ := h
  refine ⟨diag_foldl_visitDeps m fr (visited, []) h1, ?_, ?_, ?_, ?_⟩
  · exact (mem_keys_expandFrontier _ _ _ _).mpr (Or.inl h2)
  · intro x hx
    rcases (mem_keys_expandFrontier _ _ _ _).mp hx with hx | ⟨f, hf, hxf⟩
    · exact h3 x hx
    · exact Relation.ReflTransGen.tail (h3 f (h4 f hf)) hxf
  · intro x hx
    exact (mem_keys_expandFrontier _ _ _ _).mpr
      (Or.inr ((mem_tmp_expandFrontier _ _ _ _).mp hx).2)
  · intro x hx hxn d hd
    rw [mem_keys_expandFrontier]
    by_cases hv : x ∈ GoMap.keys visited
    · by_cases hf : x ∈ fr
      · exact Or.inr ⟨x, hf, hd⟩
      · exact Or.inl (h5 x hv hf d hd)
    · rcases (mem_keys_expandFrontier _ _ _ _).mp hx with hx | hx
      · exact absurd hx hv
      · exact absurd ((mem_tmp_expandFrontier _ _ _ _).mpr ⟨hv, hx⟩) hxn

theorem bfsLoop_inv (m : ModuleGraph) (focus : Nat) (fuel : Nat) (visited : GoMap Nat Nat)
    (fr : List Nat) (v : GoMap Nat Nat) (h : BfsInv m focus visited fr)
    (hv : bfsLoop m fuel visited fr = some v) : BfsInv m focus v [] := by
  induction fuel generalizing visited fr with
  | zero =>
    cases fr with
    | nil =>
      rw [bfsLoop_nil] at hv
      exact Option.some.inj hv ▸ h
    | cons f fr => simp [bfsLoop] at hv
  | succ fuel ih =>
    cases fr with
    | nil =>
      rw [bfsLoop_nil] at hv
      exact Option.some.inj hv ▸ h
    | cons f fr =>
      rw [bfsLoop_succ] at hv
      exact ih _ _ (BfsInv_expand m focus visited (f :: fr) h) hv

theorem BfsInv_init (m : ModuleGraph) (focus : Nat) :
    BfsInv m focus [(focus, focus)] [focus] := by
  refine ⟨?_, ?_, ?_, ?_, ?_⟩
  · intro e he
    rw [List.mem_singleton.mp he]
  · simp [GoMap.keys]
  · intro x hx
    simp only [GoMap.keys, List.map_cons, List.map_nil, List.mem_singleton] at hx
    rw [hx]
    exact Relation.ReflTransGen.refl
  · intro x hx
    simpa [GoMap.keys] using hx
  · intro x hx hxn
    simp only [GoMap.keys, List.map_cons, List.map_nil, List.mem_singleton] at hx
    exact absurd (List.mem_singleton.mpr hx) hxn

theorem mem_keys_of_BfsInv_nil (m : ModuleGraph) (focus : Nat) (v : GoMap Nat Nat)
    (h : BfsInv m focus v []) (x : Nat) : x ∈ GoMap.keys v ↔ Reaches m focus x := by
  obtain ⟨_, h2, h3, _, h5⟩ := h
  constructor
  · exact h3 x
  · intro hr
    induction hr with
    | refl => exact h2
    | tail _ hbc ih => exact h5 _ ih (List.not_mem_nil _) _ hbc

theorem bfs_reaches (m : ModuleGraph) (focus fuel : Nat) (v : GoMap Nat Nat)
    (hv : bfs fuel m focus = some v) :
    (∀ e ∈ v, e.1 = e.2) ∧ ∀ x, x ∈ GoMap.keys v ↔ Reaches m focus x := by
  have h := bfsLoop_inv m focus fuel _ _ v (BfsInv_init m focus) hv
  exact ⟨h.1, mem_keys_of_BfsInv_nil m focus v h⟩

theorem bfsLoop_terminates (m : ModuleGraph) (U : Finset Nat)
    (hU : ∀ s d, d ∈ m.deps s → d ∈ U) (fuel : Nat) (visited : GoMap Nat Nat)
    (fr : List Nat) (h : (U \ (GoMap.keys visited).toFinset).card < fuel) :
    ∃ v, bfsLoop m fuel visited fr = some v := by
  induction fuel generalizing visited fr with
  | zero => exact absurd h (Nat.not_lt_zero _)
  | succ fuel ih =>
    cases fr with
    | nil => exact ⟨visited, bfsLoop_nil _ _ _⟩
    | cons f fr =>
      rw [bfsLoop_succ]
      cases hn : (expandFrontier m visited (f :: fr)).2 with
      | nil => exact ⟨_, bfsLoop_nil _ _ _⟩
      | cons y ys =>
        rw [← hn]
        apply ih
        have hy : y ∈ (expandFrontier m visited (f :: fr)).2 := by rw [hn]; simp
        obtain ⟨hy1, g, hg, hy2⟩ := (mem_tmp_expandFrontier _ _ _ _).mp hy
        have hlt : (U \ (GoMap.keys (expandFrontier m visited (f :: fr)).1).toFinset).card <
            (U \ (GoMap.keys visited).toFinset).card := by
          apply Finset.card_lt_card
          rw [Finset.ssubset_iff_of_subset]
          · refine ⟨y, ?_, ?_⟩
            · simp only [Finset.mem_sdiff, List.mem_toFinset]
              exact ⟨hU g y hy2, hy1⟩
            · simp only [Finset.mem_sdiff, List.mem_toFinset, not_and, not_not]
              intro _
              exact (mem_keys_expandFrontier _ _ _ _).mpr (Or.inr ⟨g, hg, hy2⟩)
          · intro x hx
            simp only [Finset.mem_sdiff, List.mem_toFinset] at hx ⊢
            exact ⟨hx.1, fun hc => hx.2 ((mem_keys_expandFrontier _ _ _ _).mpr (Or.inl hc))⟩
        omega

/-! ## Building the filtered graph -/

theorem foldl_copyVisit_concat (s0 : RenderState) (vs : List Nat) (v : Nat) :
    (vs ++ [v]).foldl copyVisit s0 = copyVisit (vs.foldl copyVisit s0) v := by
  simp [List.foldl_append]

theorem copyVisit_receiver (s0 : RenderState) (vs : List Nat) :
    (vs.foldl copyVisit s0).m = s0.m := by
  induction vs using List.reverseRecOn with
  | nil => rfl
  | append_singleton vs v ih =>
    rw [foldl_copyVisit_concat]
    exact ih

theorem copyVisit_ModIdsMap (s0 : RenderState) (vs : List Nat) :
    (vs.foldl copyVisit s0).filterModuleGraph.ModIdsMap = s0.filterModuleGraph.ModIdsMap := by
  induction vs using List.reverseRecOn with
  | nil => rfl
  | append_singleton vs v ih =>
    rw [foldl_copyVisit_concat]
    exact ih

theorem copyVisit_keys_deps (s0 : RenderState) (vs : List Nat) (x : Nat) :
    x ∈ GoMap.keys (vs.foldl copyVisit s0).filterModuleGraph.Dependencies ↔
      x ∈ GoMap.keys s0.filterModuleGraph.Dependencies ∨ x ∈ vs := by
  induction vs using List.reverseRecOn with
  | nil => simp
  | append_singleton vs v ih =>
    rw [foldl_copyVisit_concat]
    show x ∈ GoMap.keys (GoMap.set _ v _) ↔ _
    rw [GoMap.mem_keys_set, ih]
    simp only [List.mem_append, List.mem_singleton]
    tauto

theorem copyVisit_get_deps (s0 : RenderState) (vs : List Nat) (x : Nat) (hx : x ∈ vs) :
    GoMap.get (vs.foldl copyVisit s0).filterModuleGraph.Dependencies x =
      some (s0.m.deps x) := by
  induction vs using List.reverseRecOn with
  | nil => simp at hx
  | append_singleton vs v ih =>
    rw [foldl_copyVisit_concat]
    show GoMap.get (GoMap.set _ v ((vs.foldl copyVisit s0).m.deps v)) x = _
    rw [copyVisit_receiver]
    by_cases hxv : v = x
    · rw [hxv, GoMap.get_set_self]
    · rw [GoMap.get_set_ne _ _ _ _ hxv]
      apply ih
      rcases List.mem_append.mp hx with h | h
      · exact h
      · exact absurd (List.mem_singleton.mp h).symm hxv

theorem copyVisit_get_mods_sound (s0 : RenderState) (vs : List Nat) (l : List Char)
    (i : Nat) (h : GoMap.get (vs.foldl copyVisit s0).filterModuleGraph.Mods l = some i) :
    GoMap.get s0.filterModuleGraph.Mods l = some i ∨ (i ∈ vs ∧ s0.m.label i = l) := by
  induction vs using List.reverseRecOn with
  | nil => exact Or.inl h
  | append_singleton vs v ih =>
    rw [foldl_copyVisit_concat] at h
    change GoMap.get (GoMap.set _ ((vs.foldl copyVisit s0).m.label v) v) l = some i at h
    rw [copyVisit_receiver] at h
    by_cases hl : s0.m.label v = l
    · rw [hl, GoMap.get_set_self] at h
      have hvi : v = i := Option.some.inj h
      exact Or.inr ⟨by simp [hvi], hvi ▸ hl⟩
    · rw [GoMap.get_set_ne _ _ _ _ hl] at h
      rcases ih h with h1 | ⟨h1, h2⟩
      · exact Or.inl h1
      · exact Or.inr ⟨List.mem_append_left _ h1, h2⟩

theorem copyVisit_get_mods_complete (s0 : RenderState) (vs : List Nat)
    (hinj : ∀ a ∈ vs, ∀ b ∈ vs, s0.m.label a = s0.m.label b → a = b) (i : Nat)
    (hi : i ∈ vs) :
    GoMap.get (vs.foldl copyVisit s0).filterModuleGraph.Mods (s0.m.label i) = some i := by
  induction vs using List.reverseRecOn with
  | nil => simp at hi
  | append_singleton vs v ih =>
    rw [foldl_copyVisit_concat]
    show GoMap.get (GoMap.set _ ((vs.foldl copyVisit s0).m.label v) v) _ = _
    rw [copyVisit_receiver]
    by_cases hvi : v = i
    · rw [hvi, GoMap.get_set_self]
    · have hiv : i ∈ vs := by
        rcases List.mem_append.mp hi with h | h
        · exact h
        · exact absurd (List.mem_singleton.mp h).symm hvi
      have hne : s0.m.label v ≠ s0.m.label i := fun e =>
        hvi (hinj v (by simp) i (List.mem_append_left _ hiv) e)
      rw [GoMap.get_set_ne _ _ _ _ hne]
      exact ih (fun a ha b hb => hinj a (List.mem_append_left _ ha) b
        (List.mem_append_left _ hb)) hiv

theorem values_eq_keys_of_diag (visited : GoMap Nat Nat) (h : ∀ e ∈ visited, e.1 = e.2) :
    visited.map Prod.snd = GoMap.keys visited := by
  simp only [GoMap.keys]
  exact List.map_congr_left (fun e he => (h e he).symm)

/-! ## Graphs built by Parse -/

theorem idIn_mem_range (D : List (List Char)) (x : List Char) (hx : x ∈ D) :
    idIn D x ∈ List.range' 1 D.length := by
  have := firstIndex_lt_length D x hx
  simp only [idIn, List.mem_range'_1]
  omega

theorem buildFrom_wellFormed (P : List (List Char × List Char)) :
    WellFormed (buildFrom ⟨NewModuleGraph, 1⟩ P).m := by
  obtain ⟨ht, hn, hk, hd⟩ := buildFrom_spec P
  have hmem : ∀ p ∈ P, p.1 ∈ firsts (labelsOf P) ∧ p.2 ∈ firsts (labelsOf P) := fun p hp =>
    ⟨(mem_firsts _ _).mpr ((mem_labelsOf _ _).mpr ⟨p, hp, Or.inl rfl⟩),
      (mem_firsts _ _).mpr ((mem_labelsOf _ _).mpr ⟨p, hp, Or.inr rfl⟩)⟩
  refine ⟨table_bijection _ (nodup_firsts _) _ ht, ?_, hn, ?_, ?_⟩
  · rw [keys_ModIdsMap_of_table _ _ ht]
    exact List.nodup_range' 1 _
  · intro s hs
    obtain ⟨p, hp, hps⟩ := (hk s).mp hs
    refine ⟨?_, ?_⟩
    · rw [keys_ModIdsMap_of_table _ _ ht, ← hps]
      exact idIn_mem_range _ _ (hmem p hp).1
    · rw [hd s]
      intro hnil
      have hp1 : p ∈ P.filter (fun p => decide (idIn (firsts (labelsOf P)) p.1 = s)) :=
        List.mem_filter.mpr ⟨hp, by simp [hps]⟩
      have := List.map_eq_nil_iff.mp hnil
      rw [this] at hp1
      exact List.not_mem_nil _ hp1
  · intro s d hd1
    rw [hd s] at hd1
    obtain ⟨q, hq, rfl⟩ := List.mem_map.mp hd1
    rw [keys_ModIdsMap_of_table _ _ ht]
    exact idIn_mem_range _ _ (hmem q (List.mem_filter.mp hq).1).2

theorem parsed_eq_some (input : List Char) (g : ModuleGraph) (h : parsed input = some g) :
    ∃ P, g = (buildFrom ⟨NewModuleGraph, 1⟩ P).m := by
  unfold parsed at h
  cases hp : Parse input with
  | panicked => simp [hp] at h
  | returned r =>
    obtain ⟨e, g1⟩ := r
    cases e with
    | some e1 => simp [hp] at h
    | none =>
      simp only [hp, Option.some.injEq] at h
      subst h
      exact (parseLoop_returned input _ _ none g1 hp).2

theorem parsed_wellFormed (input : List Char) (g : ModuleGraph)
    (h : parsed input = some g) : WellFormed g := by
  obtain ⟨P, rfl⟩ := parsed_eq_some input g h
  exact buildFrom_wellFormed P

/-! ## Termination of the traversal -/

theorem GoMap.mem_of_get {K V : Type} [DecidableEq K] (m : GoMap K V) (k : K) (v : V)
    (h : GoMap.get m k = some v) : (k, v) ∈ m := by
  induction m with
  | nil => simp [GoMap.get] at h
  | cons e rest ih =>
    obtain ⟨k0, v0⟩ := e
    by_cases h0 : k0 = k
    · simp only [GoMap.get, h0, if_true, Option.some.injEq] at h
      rw [h0, h]
      exact List.mem_cons_self _ _
    · simp only [GoMap.get, h0, if_false] at h
      exact List.mem_cons_of_mem _ (ih h)

theorem mem_allDests (m : ModuleGraph) (s d : Nat) (h : d ∈ m.deps s) : d ∈ allDests m := by
  unfold ModuleGraph.deps at h
  cases hg : GoMap.get m.Dependencies s with
  | none => simp [hg] at h
  | some l =>
    simp only [hg, Option.getD_some] at h
    unfold allDests
    rw [List.mem_flatten]
    exact ⟨l, List.mem_map.mpr ⟨(s, l), GoMap.mem_of_get _ _ _ hg, rfl⟩, h⟩

theorem bfs_terminates (m : ModuleGraph) (modId fuel : Nat)
    (h : (allDests m).length < fuel) : ∃ v, bfs fuel m modId = some v := by
  apply bfsLoop_terminates m (allDests m).toFinset
    (fun s d hd => List.mem_toFinset.mpr (mem_allDests m s d hd))
  calc ((allDests m).toFinset \ (GoMap.keys [(modId, modId)]).toFinset).card
      ≤ (allDests m).toFinset.card := Finset.card_le_card Finset.sdiff_subset
    _ ≤ (allDests m).length := List.toFinset_card_le _
    _ < fuel := h

theorem bfs_terminates_wellFormed (g : ModuleGraph) (hw : WellFormed g) (modId fuel : Nat)
    (hm : modId ∈ GoMap.keys g.ModIdsMap) (h : GoMap.len g.ModIdsMap ≤ fuel) :
    ∃ v, bfs fuel g modId = some v := by
  obtain ⟨_, hn, _, _, hd⟩ := hw
  apply bfsLoop_terminates g (GoMap.keys g.ModIdsMap).toFinset
    (fun s d hd1 => List.mem_toFinset.mpr (hd s d hd1))
  have hcard : (GoMap.keys g.ModIdsMap).toFinset.card = GoMap.len g.ModIdsMap := by
    rw [List.toFinset_card_of_nodup hn]
    simp [GoMap.keys, GoMap.len]
  have hlt : ((GoMap.keys g.ModIdsMap).toFinset \
      (GoMap.keys [(modId, modId)]).toFinset).card < (GoMap.keys g.ModIdsMap).toFinset.card := by
    apply Finset.card_lt_card
    rw [Finset.ssubset_iff_of_subset Finset.sdiff_subset]
    exact ⟨modId, List.mem_toFinset.mpr hm, by simp [GoMap.keys]⟩
  omega

/-! ## Unfolding Render -/

theorem Render_no_focus (fuel : Nat) (order : GoMap Nat Nat → GoMap Nat Nat)
    (m : ModuleGraph) (args : List Char) (h : TrimSpace args = []) :
    Render fuel order m args =
      some { receiver := m, shown := m, written := renderGraph m, err := none } := by
  simp [Render, h]

theorem Render_unknown (fuel : Nat) (order : GoMap Nat Nat → GoMap Nat Nat)
    (m : ModuleGraph) (args : List Char) (h : TrimSpace args ≠ [])
    (hp : GoMap.get m.Mods (ReplaceAt (TrimSpace args)) = none) :
    Render fuel order m args =
      some { receiver := m, shown := m, written := [],
             err := some (notExisted (TrimSpace args)) } := by
  simp [Render, h, hp]

theorem Render_out_of_fuel (fuel : Nat) (order : GoMap Nat Nat → GoMap Nat Nat)
    (m : ModuleGraph) (args : List Char) (modId : Nat) (h : TrimSpace args ≠ [])
    (hp : GoMap.get m.Mods (ReplaceAt (TrimSpace args)) = some modId)
    (hv : bfs fuel m modId = none) : Render fuel order m args = none := by
  simp [Render, h, hp, hv]

theorem Render_found (fuel : Nat) (order : GoMap Nat Nat → GoMap Nat Nat)
    (m : ModuleGraph) (args : List Char) (modId : Nat)
    (visited : GoMap Nat Nat) (h : TrimSpace args ≠ [])
    (hp : GoMap.get m.Mods (ReplaceAt (TrimSpace args)) = some modId)
    (hv : bfs fuel m modId = some visited) :
    Render fuel order m args =
      some { receiver := (copyVisited m (order visited)).m,
             shown := (copyVisited m (order visited)).filterModuleGraph,
             written := renderGraph (copyVisited m (order visited)).filterModuleGraph,
             err := none } := by
  have hk : modId ∈ GoMap.keys visited :=
    ((bfs_reaches m modId fuel visited hv).2 modId).mpr Relation.ReflTransGen.refl
  have hlen : GoMap.len visited > 0 := by
    simp only [GoMap.keys] at hk
    simp only [GoMap.len]
    exact List.length_pos_of_mem (List.mem_map.mp hk).choose_spec.1
  simp [Render, h, hp, hv, hlen]

/-! ## The filtered graph of a graph built by Parse -/

theorem reaches_mem_nodes (g : ModuleGraph) (hw : WellFormed g) (modId : Nat)
    (hm : modId ∈ GoMap.keys g.ModIdsMap) (x : Nat) (hr : Reaches g modId x) :
    x ∈ GoMap.keys g.ModIdsMap := by
  induction hr with
  | refl => exact hm
  | tail _ hbc _ => exact hw.2.2.2.2 _ _ hbc

theorem label_of_get (g : ModuleGraph) (i : Nat) (l : List Char)
    (h : GoMap.get g.ModIdsMap i = some l) : g.label i = l := by
  simp [ModuleGraph.label, h]

theorem focus_mem_nodes (g : ModuleGraph) (hw : WellFormed g) (pkg : List Char)
    (modId : Nat) (h : GoMap.get g.Mods pkg = some modId) :
    modId ∈ GoMap.keys g.ModIdsMap :=
  (GoMap.mem_keys_iff _ _).mpr ⟨pkg, (hw.1 pkg modId).mp h⟩

theorem nodup_keys_copyVisit (s0 : RenderState) (vs : List Nat)
    (h0 : (GoMap.keys s0.filterModuleGraph.Dependencies).Nodup) :
    (GoMap.keys (vs.foldl copyVisit s0).filterModuleGraph.Dependencies).Nodup := by
  induction vs using List.reverseRecOn with
  | nil => exact h0
  | append_singleton vs v ih =>
    rw [foldl_copyVisit_concat]
    exact GoMap.nodup_keys_set _ _ _ ih

theorem filter_spec (g : ModuleGraph) (hw : WellFormed g) (modId fuel : Nat)
    (hm : modId ∈ GoMap.keys g.ModIdsMap) (visited0 : GoMap Nat Nat)
    (hv : bfs fuel g modId = some visited0) (visited : GoMap Nat Nat)
    (hperm : visited.Perm visited0) :
    (∀ i, i ∈ GoMap.keys (copyVisited g visited).filterModuleGraph.Dependencies ↔
      Reaches g modId i) ∧
    (∀ i, Reaches g modId i →
      GoMap.get (copyVisited g visited).filterModuleGraph.Dependencies i =
        some (g.deps i)) ∧
    (∀ l i, GoMap.get (copyVisited g visited).filterModuleGraph.Mods l = some i ↔
      (Reaches g modId i ∧ GoMap.get g.Mods l = some i)) := by
  obtain ⟨hdiag0, hreach0⟩ := bfs_reaches g modId fuel visited0 hv
  have hdiag : ∀ e ∈ visited, e.1 = e.2 := fun e he => hdiag0 e (hperm.mem_iff.mp he)
  have hreach : ∀ x, x ∈ GoMap.keys visited ↔ Reaches g modId x := fun x =>
    ((hperm.map Prod.fst).mem_iff).trans (hreach0 x)
  have hvals := values_eq_keys_of_diag visited hdiag
  have hlabel : ∀ i, Reaches g modId i → ∃ l, GoMap.get g.ModIdsMap i = some l :=
    fun i hi => (GoMap.mem_keys_iff _ _).mp (reaches_mem_nodes g hw modId hm i hi)
  unfold copyVisited
  rw [hvals]
  refine ⟨?_, ?_, ?_⟩
  · intro i
    rw [copyVisit_keys_deps, hreach i]
    simp [NewModuleGraph, GoMap.keys]
  · intro i hi
    exact copyVisit_get_deps _ _ i ((hreach i).mpr hi)
  · intro l i
    constructor
    · intro h
      rcases copyVisit_get_mods_sound _ _ l i h with h1 | ⟨h1, h2⟩
      · simp [NewModuleGraph, GoMap.get] at h1
      · have hi := (hreach i).mp h1
        obtain ⟨l1, hl1⟩ := hlabel i hi
        have : l1 = l := by rw [← label_of_get g i l1 hl1]; exact h2
        exact ⟨hi, (hw.1 l i).mpr (this ▸ hl1)⟩
    · rintro ⟨hi, hl⟩
      have hl1 := (hw.1 l i).mp hl
      have hinj : ∀ a ∈ GoMap.keys visited, ∀ b ∈ GoMap.keys visited,
          g.label a = g.label b → a = b := by
        intro a ha b hb hab
        obtain ⟨la, hla⟩ := hlabel a ((hreach a).mp ha)
        obtain ⟨lb, hlb⟩ := hlabel b ((hreach b).mp hb)
        rw [label_of_get g a la hla, label_of_get g b lb hlb] at hab
        have h1 := (hw.1 la a).mpr hla
        have h2 := (hw.1 lb b).mpr hlb
        rw [hab] at h1
        exact Option.some.inj (h1.symm.trans h2)
      have := copyVisit_get_mods_complete ⟨g, NewModuleGraph⟩ (GoMap.keys visited) hinj i
        ((hreach i).mpr hi)
      rw [label_of_get g i l hl1] at this
      exact this

/-! ## Claims about the filter of Render -/

/-- C5. For a graph built by `Parse` and a focus argument whose label is in the node
table, `Render` (with fuel for as many rounds as the graph has nodes) returns without
error, and the identifiers kept in the filtered graph, as keys of `Dependencies` and as
values of `Mods`, are exactly those that can be reached from the focus identifier along
zero or more adjacency edges; the focus itself is among them. -/
theorem Render_filter_keeps_reachable (input : List Char) (g : ModuleGraph)
    (hg : parsed input = some g) (args : List Char) (modId : Nat)
    (hargs : TrimSpace args ≠ [])
    (hfocus : GoMap.get g.Mods (ReplaceAt (TrimSpace args)) = some modId)
    (fuel : Nat) (hfuel : GoMap.len g.ModIdsMap ≤ fuel)
    (order : GoMap Nat Nat → GoMap Nat Nat) (horder : ∀ v, (order v).Perm v) :
    ∃ r, Render fuel order g args = some r ∧ r.err = none ∧
      (∀ i, i ∈ GoMap.keys r.shown.Dependencies ↔ Reaches g modId i) ∧
      (∀ i, (∃ l, GoMap.get r.shown.Mods l = some i) ↔ Reaches g modId i) ∧
      modId ∈ GoMap.keys r.shown.Dependencies ∧
      GoMap.get r.shown.Mods (ReplaceAt (TrimSpace args)) = some modId := by
  have hw := parsed_wellFormed input g hg
  have hm := focus_mem_nodes g hw _ modId hfocus
  obtain ⟨visited, hv⟩ := bfs_terminates_wellFormed g hw modId fuel hm hfuel
  obtain ⟨f1, -, f3⟩ := filter_spec g hw modId fuel hm visited hv _ (horder visited)
  refine ⟨_, Render_found fuel order g args modId visited hargs hfocus hv, rfl, f1, ?_,
    (f1 modId).mpr Relation.ReflTransGen.refl,
    (f3 _ modId).mpr ⟨Relation.ReflTransGen.refl, hfocus⟩⟩
  intro i
  constructor
  · rintro ⟨l, hl⟩
    exact ((f3 l i).mp hl).1
  · intro hi
    obtain ⟨l, hl⟩ := (GoMap.mem_keys_iff _ _).mp (reaches_mem_nodes g hw modId hm i hi)
    exact ⟨l, (f3 l i).mpr ⟨hi, (hw.1 l i).mpr hl⟩⟩

/-- Witness of C5: the focus `a` on the cycle between `a` and `b`. -/
theorem Render_filter_keeps_reachable_witness :
    parsed cycleInput = some cycleGraph ∧
    ∃ r, Render 2 id cycleGraph "a".toList = some r ∧ r.err = none ∧
      (∀ i, i ∈ GoMap.keys r.shown.Dependencies ↔ Reaches cycleGraph 1 i) :=
  ⟨by decide,
    (Render_filter_keeps_reachable cycleInput cycleGraph (by decide) "a".toList 1
      (by decide) (by decide) 2 (by decide) id (fun v => List.Perm.refl v)).imp
      (fun _ hr => ⟨hr.1, hr.2.1, hr.2.2.1⟩)⟩

/-- C6. For every graph and every focus argument, `Render` (with fuel for the
traversal) returns; its error is `package <trimmed argument> not existed` exactly when
the trimmed argument is not empty and, with its first `@` replaced by a line break, is
not a key of `Mods`; it returns no other error, and with the error nothing is written. -/
theorem Render_unknown_package (m : ModuleGraph) (args : List Char) (fuel : Nat)
    (hfuel : (allDests m).length < fuel) (order : GoMap Nat Nat → GoMap Nat Nat) :
    ∃ r, Render fuel order m args = some r ∧
      (r.err = some (notExisted (TrimSpace args)) ↔
        (TrimSpace args ≠ [] ∧ GoMap.get m.Mods (ReplaceAt (TrimSpace args)) = none)) ∧
      (r.err = none ∨ r.err = some (notExisted (TrimSpace args))) ∧
      (r.err ≠ none → r.written = []) := by
  by_cases h : TrimSpace args = []
  · refine ⟨_, Render_no_focus fuel order m args h, ?_, Or.inl rfl,
      fun hc => absurd rfl hc⟩
    constructor
    · intro hc
      exact absurd hc (by simp)
    · rintro ⟨hc, _⟩
      exact absurd h hc
  · cases hp : GoMap.get m.Mods (ReplaceAt (TrimSpace args)) with
    | none =>
      exact ⟨_, Render_unknown fuel order m args h hp, ⟨fun _ => ⟨h, rfl⟩, fun _ => rfl⟩,
        Or.inr rfl, fun _ => rfl⟩
    | some modId =>
      obtain ⟨visited, hv⟩ := bfs_terminates m modId fuel hfuel
      refine ⟨_, Render_found fuel order m args modId visited h hp hv, ?_, Or.inl rfl,
        fun hc => absurd rfl hc⟩
      constructor
      · intro hc
        exact absurd hc (by simp)
      · rintro ⟨_, hc⟩
        exact absurd hc (by simp)

/-- Witness of C6: scenario 4, a focus that the input does not name. -/
theorem Render_unknown_package_witness :
    ∃ r, Render 3 id chainGraph " d@1 ".toList = some r ∧
      (r.err = some "package d@1 not existed".toList ↔
        (TrimSpace " d@1 ".toList ≠ [] ∧
          GoMap.get chainGraph.Mods (ReplaceAt (TrimSpace " d@1 ".toList)) = none)) ∧
      (r.err = none ∨ r.err = some "package d@1 not existed".toList) ∧
      (r.err ≠ none → r.written = []) :=
  Render_unknown_package chainGraph " d@1 ".toList 3 (by decide) id

/-- C7. For every graph and every focus argument, the receiver of `Render` holds the same
`Mods`, `Dependencies` and `ModIdsMap` after the call as before: the filter writes to
the new graph only. -/
theorem Render_receiver_unchanged (m : ModuleGraph) (args : List Char) (fuel : Nat)
    (hfuel : (allDests m).length < fuel) (order : GoMap Nat Nat → GoMap Nat Nat) :
    ∃ r, Render fuel order m args = some r ∧ r.receiver = m := by
  by_cases h : TrimSpace args = []
  · exact ⟨_, Render_no_focus fuel order m args h, rfl⟩
  · cases hp : GoMap.get m.Mods (ReplaceAt (TrimSpace args)) with
    | none => exact ⟨_, Render_unknown fuel order m args h hp, rfl⟩
    | some modId =>
      obtain ⟨visited, hv⟩ := bfs_terminates m modId fuel hfuel
      exact ⟨_, Render_found fuel order m args modId visited h hp hv,
        copyVisit_receiver ⟨m, NewModuleGraph⟩ _⟩

/-- Witness of C7: scenario 3, where the filtered graph differs from the receiver. -/
theorem Render_receiver_unchanged_witness :
    ∃ r, Render 3 id chainGraph "c@1".toList = some r ∧ r.receiver = chainGraph :=
  Render_receiver_unchanged chainGraph "c@1".toList 3 (by decide) id

/-- C8. For a graph built by `Parse` and a focus argument whose label is in the node
table, `Render` returns without error and the filtered graph is the part of the
original that can be reached from the focus: its `Mods` holds exactly the entries of
the original `Mods` whose identifier can be reached (the focus label among them), the
keys of its `Dependencies` are distinct and are exactly those identifiers, every
identifier of its `Mods` has its original adjacency list, and every destination in that
list is a kept identifier with its original label. -/
theorem Render_filter_keeps_edges (input : List Char) (g : ModuleGraph)
    (hg : parsed input = some g) (args : List Char) (modId : Nat)
    (hargs : TrimSpace args ≠ [])
    (hfocus : GoMap.get g.Mods (ReplaceAt (TrimSpace args)) = some modId)
    (fuel : Nat) (hfuel : GoMap.len g.ModIdsMap ≤ fuel)
    (order : GoMap Nat Nat → GoMap Nat Nat) (horder : ∀ v, (order v).Perm v) :
    ∃ r, Render fuel order g args = some r ∧ r.err = none ∧
      GoMap.get r.shown.Mods (ReplaceAt (TrimSpace args)) = some modId ∧
      (∀ l i, GoMap.get r.shown.Mods l = some i ↔
        (Reaches g modId i ∧ GoMap.get g.Mods l = some i)) ∧
      (∀ i, i ∈ GoMap.keys r.shown.Dependencies ↔ Reaches g modId i) ∧
      (GoMap.keys r.shown.Dependencies).Nodup ∧
      (∀ l i, GoMap.get r.shown.Mods l = some i →
        GoMap.get r.shown.Dependencies i = some (g.deps i) ∧
        r.shown.deps i = g.deps i ∧
        ∀ d ∈ g.deps i, d ∈ GoMap.keys r.shown.Dependencies ∧
          ∃ l1, GoMap.get r.shown.Mods l1 = some d ∧ GoMap.get g.Mods l1 = some d) ∧
      (∀ i, Reaches g modId i →
        (∃ l, GoMap.get g.ModIdsMap i = some l ∧ GoMap.get r.shown.Mods l = some i) ∧
        GoMap.get r.shown.Dependencies i = some (g.deps i)) := by
  have hw := parsed_wellFormed input g hg
  have hm := focus_mem_nodes g hw _ modId hfocus
  obtain ⟨visited, hv⟩ := bfs_terminates_wellFormed g hw modId fuel hm hfuel
  obtain ⟨f1, f2, f3⟩ := filter_spec g hw modId fuel hm visited hv _ (horder visited)
  have hlab : ∀ i, Reaches g modId i → ∃ l, GoMap.get g.ModIdsMap i = some l ∧
      GoMap.get (copyVisited g (order visited)).filterModuleGraph.Mods l = some i := by
    intro i hi
    obtain ⟨l, hl⟩ := (GoMap.mem_keys_iff _ _).mp (reaches_mem_nodes g hw modId hm i hi)
    exact ⟨l, hl, (f3 l i).mpr ⟨hi, (hw.1 l i).mpr hl⟩⟩
  have hnd : (GoMap.keys
      (copyVisited g (order visited)).filterModuleGraph.Dependencies).Nodup :=
    nodup_keys_copyVisit _ _ (by simp [NewModuleGraph, GoMap.keys])
  refine ⟨_, Render_found fuel order g args modId visited hargs hfocus hv, rfl,
    (f3 _ modId).mpr ⟨Relation.ReflTransGen.refl, hfocus⟩, f3, f1, hnd, ?_, ?_⟩
  · intro l i hl
    have hri := ((f3 l i).mp hl).1
    have hdep := f2 i hri
    refine ⟨hdep, ?_, ?_⟩
    · show (GoMap.get _ i).getD [] = g.deps i
      rw [hdep]
      rfl
    · intro d hd
      have hrd : Reaches g modId d := Relation.ReflTransGen.tail hri hd
      obtain ⟨l1, hl1, hl2⟩ := hlab d hrd
      exact ⟨(f1 d).mpr hrd, l1, hl2, (hw.1 l1 d).mpr hl1⟩
  · intro i hri
    exact ⟨hlab i hri, f2 i hri⟩

/-- Witness of C8: scenario 2, the focus `a@1` keeps the three nodes and both edges. -/
theorem Render_filter_keeps_edges_witness :
    parsed chainInput = some chainGraph ∧
    (∃ r, Render 3 id chainGraph "a@1".toList = some r ∧ r.err = none ∧
      GoMap.get r.shown.Mods "a\n1".toList = some 1 ∧
      (∀ l i, GoMap.get r.shown.Mods l = some i →
        GoMap.get r.shown.Dependencies i = some (chainGraph.deps i))) ∧
    (run 3 id chainInput "a@1".toList).map (fun r => r.shown) =
      some { Mods := [("a\n1".toList, 1), ("b\n1".toList, 2), ("c\n1".toList, 3)]
             Dependencies := [(1, [2]), (2, [3]), (3, [])]
             ModIdsMap := [] } :=
  ⟨by decide,
    (Render_filter_keeps_edges chainInput chainGraph (by decide) "a@1".toList 1
      (by decide) (by decide) 3 (by decide) id (fun v => List.Perm.refl v)).imp
      (fun _ hr => ⟨hr.1, hr.2.1, hr.2.2.1,
        fun l i hl => (hr.2.2.2.2.2.2.1 l i hl).1⟩),
    by decide⟩

/-! ## Claims about the layout hint -/

theorem hasDirectionHint_renderGraph (m : ModuleGraph) :
    HasDirectionHint (renderGraph m) ↔ 15 < GoMap.len m.Dependencies := by
  have e1 : "digraph \x7brankdir=LR;\n".toList =
      "digraph \x7b".toList ++ "rankdir=LR;\n".toList := by decide
  have e2 : "rankdir=LR;\n".toList = 'r' :: "ankdir=LR;\n".toList := by decide
  have e3 : "node [shape=box];\n".toList = 'n' :: "ode [shape=box];\n".toList := by decide
  unfold HasDirectionHint renderGraph execTemplate
  rw [e1]
  simp only [List.append_assoc, List.prefix_append_right_inj]
  by_cases h : GoMap.len m.Dependencies > 15
  · simp only [h, if_true, List.prefix_append]
  · have hne : ¬ (([] : List Char) = "horizontal".toList) := by decide
    have hrn : ¬ ('r' = 'n') := by decide
    simp only [h, if_false, hne, List.nil_append, e2, e3, List.cons_append,
      List.cons_prefix_cons, hrn, false_and]

theorem len_Dependencies_eq_card (g : ModuleGraph) (hw : WellFormed g) (S : Finset Nat)
    (hS : ∀ s, s ∈ S ↔ g.deps s ≠ []) : GoMap.len g.Dependencies = S.card := by
  obtain ⟨_, _, hn, hk, _⟩ := hw
  have hSk : S = (GoMap.keys g.Dependencies).toFinset := by
    ext s
    rw [hS s, List.mem_toFinset]
    constructor
    · intro hne
      rw [GoMap.mem_keys_iff]
      cases hgs : GoMap.get g.Dependencies s with
      | none => simp [ModuleGraph.deps, hgs] at hne
      | some l => exact ⟨l, rfl⟩
    · exact fun hs => (hk s hs).2
  rw [hSk, List.toFinset_card_of_nodup hn]
  simp [GoMap.keys, GoMap.len]

/-- C9. For a graph built by `Parse` and rendered without a focus argument, the document
opens with the statement `rankdir=LR;` exactly when more than 15 identifiers have a
non-empty adjacency list. -/
theorem Render_direction_hint_unfiltered (input : List Char) (g : ModuleGraph)
    (hg : parsed input = some g) (args : List Char) (hargs : TrimSpace args = [])
    (fuel : Nat) (order : GoMap Nat Nat → GoMap Nat Nat) (S : Finset Nat)
    (hS : ∀ s, s ∈ S ↔ g.deps s ≠ []) :
    ∃ r, Render fuel order g args = some r ∧ r.err = none ∧
      (HasDirectionHint r.written ↔ 15 < S.card) := by
  refine ⟨_, Render_no_focus fuel order g args hargs, rfl, ?_⟩
  rw [← len_Dependencies_eq_card g (parsed_wellFormed input g hg) S hS]
  exact hasDirectionHint_renderGraph g

/-- Witness of C9: sixteen sources with an outgoing edge each give the hint. -/
theorem Render_direction_hint_unfiltered_witness :
    parsed loopsInput = some loopsGraph ∧
    ∃ r, Render 0 id loopsGraph [] = some r ∧ r.err = none ∧ HasDirectionHint r.written :=
  ⟨by decide,
    (Render_direction_hint_unfiltered loopsInput loopsGraph (by decide) [] (by decide) 0 id
      (Finset.Icc 1 16) (by
        intro s
        by_cases hs : s ≤ 16
        · interval_cases s <;> decide
        · have hk : s ∉ GoMap.keys loopsGraph.Dependencies := by
            simp only [loopsGraph, GoMap.keys, List.map_cons, List.map_nil, List.mem_cons,
              List.not_mem_nil, or_false]
            omega
          have hn : loopsGraph.deps s = [] := by
            unfold ModuleGraph.deps
            rw [(GoMap.not_mem_keys_iff _ _).mp hk]
            rfl
          simp only [Finset.mem_Icc, hn, ne_eq, not_true_eq_false, iff_false]
          omega)).imp
      (fun _ hr => ⟨hr.1, hr.2.1, hr.2.2.mpr (by decide)⟩)⟩

theorem len_copyVisit_deps (s0 : RenderState) (vs : List Nat) (hnd : vs.Nodup)
    (hdisj : ∀ x ∈ vs, x ∉ GoMap.keys s0.filterModuleGraph.Dependencies) :
    GoMap.len (vs.foldl copyVisit s0).filterModuleGraph.Dependencies =
      GoMap.len s0.filterModuleGraph.Dependencies + vs.length := by
  induction vs using List.reverseRecOn with
  | nil => rfl
  | append_singleton vs v ih =>
    rw [foldl_copyVisit_concat]
    have hnd1 := List.nodup_append.mp hnd
    have hv : v ∉ GoMap.keys (vs.foldl copyVisit s0).filterModuleGraph.Dependencies := by
      rw [copyVisit_keys_deps]
      rintro (h | h)
      · exact hdisj v (by simp) h
      · exact hnd1.2.2 h (List.mem_singleton_self v)
    show GoMap.len (GoMap.set _ v _) = _
    rw [GoMap.set_of_not_mem _ _ _ hv]
    have := ih hnd1.1 (fun x hx => hdisj x (List.mem_append_left _ hx))
    simp only [GoMap.len] at this ⊢
    rw [List.length_append, this, List.length_append]
    simp
    omega

theorem deps_copyVisit (s0 : RenderState) (vs : List Nat)
    (h0 : s0.filterModuleGraph.Dependencies = []) (x : Nat) :
    (vs.foldl copyVisit s0).filterModuleGraph.deps x =
      if x ∈ vs then s0.m.deps x else [] := by
  by_cases hx : x ∈ vs
  · rw [if_pos hx]
    unfold ModuleGraph.deps
    rw [copyVisit_get_deps s0 vs x hx]
    rfl
  · rw [if_neg hx]
    have hk : x ∉ GoMap.keys (vs.foldl copyVisit s0).filterModuleGraph.Dependencies := by
      rw [copyVisit_keys_deps, h0]
      simp [GoMap.keys, hx]
    unfold ModuleGraph.deps
    rw [(GoMap.not_mem_keys_iff _ _).mp hk]
    rfl

theorem starGraph_deps_ne_nil (s : Nat) : starGraph.deps s ≠ [] ↔ s = 1 := by
  by_cases h : s = 1
  · subst h
    simp [ModuleGraph.deps, starGraph, GoMap.get]
  · have h1 : ¬ 1 = s := fun e => h e.symm
    simp [ModuleGraph.deps, starGraph, GoMap.get, h, h1]

/-- C10, the code on a star. For the input with source `r` and fifteen destinations and
the focus `r`, in whatever order line 115 visits the kept nodes, the filtered graph has
one identifier with outgoing edges (identifier 1), yet its document opens with
`rankdir=LR;`: line 117 stores a key in `Dependencies` for each of the sixteen kept
nodes. Rendered without focus, the same graph gets no hint. -/
theorem Render_filtered_hint_counts_leaves (order : GoMap Nat Nat → GoMap Nat Nat)
    (horder : ∀ v, (order v).Perm v) :
    parsed starInput = some starGraph ∧
    (∃ r, Render 16 order starGraph "r".toList = some r ∧ r.err = none ∧
      HasDirectionHint r.written ∧ GoMap.len r.shown.Dependencies = 16 ∧
      ∀ s, r.shown.deps s ≠ [] ↔ s = 1) ∧
    (∃ r, Render 16 order starGraph [] = some r ∧ r.err = none ∧
      ¬ HasDirectionHint r.written ∧ r.shown = starGraph) := by
  have hv : bfs 16 starGraph 1 = some starVisited := by decide
  have hperm := horder starVisited
  have hvals : ((order starVisited).map Prod.snd).Perm (starVisited.map Prod.snd) :=
    hperm.map Prod.snd
  have hlen : GoMap.len (copyVisited starGraph (order starVisited)).filterModuleGraph.Dependencies
      = 16 := by
    unfold copyVisited
    rw [len_copyVisit_deps _ _ (hvals.nodup_iff.mpr (by decide))
      (fun x _ => by simp [NewModuleGraph, GoMap.keys]), hvals.length_eq]
    rfl
  refine ⟨by decide, ⟨_, Render_found 16 order starGraph "r".toList 1 starVisited
    (by decide) (by decide) hv, rfl, ?_, hlen, ?_⟩,
    ⟨_, Render_no_focus 16 order starGraph [] (by decide), rfl, ?_, rfl⟩⟩
  · rw [hasDirectionHint_renderGraph, hlen]
    decide
  · intro s
    unfold copyVisited
    rw [deps_copyVisit _ _ rfl]
    constructor
    · intro h
      by_cases hs : s ∈ (order starVisited).map Prod.snd
      · rw [if_pos hs] at h
        exact (starGraph_deps_ne_nil s).mp h
      · rw [if_neg hs] at h
        exact absurd rfl h
    · intro h
      have hs : s ∈ (order starVisited).map Prod.snd := by
        rw [hvals.mem_iff, h]
        decide
      rw [if_pos hs]
      exact (starGraph_deps_ne_nil s).mpr h
  · rw [hasDirectionHint_renderGraph]
    decide

/-- Witness of C10: the star with the kept nodes visited in insertion order. -/
theorem Render_filtered_hint_counts_leaves_witness :
    (run 16 id starInput "r".toList).map
        (fun r => (decide (HasDirectionHint r.written),
          (GoMap.keys r.shown.Dependencies).filter (fun s => decide (r.shown.deps s ≠ [])),
          GoMap.len r.shown.Dependencies)) = some (true, [1], 16) ∧
    (run 16 id starInput []).map
        (fun r => (decide (HasDirectionHint r.written),
          (GoMap.keys r.shown.Dependencies).filter (fun s => decide (r.shown.deps s ≠ [])),
          GoMap.len r.shown.Dependencies)) = some (false, [1], 1) ∧
    parsed starInput = some starGraph :=
  ⟨by decide, by decide,
    (Render_filtered_hint_counts_leaves id (fun v => List.Perm.refl v)).1⟩

/-! ## Further claims about Parse -/

/-- C14. On the empty input `Parse` returns no error and leaves the three maps of the
graph empty: no node and no edge. -/
theorem Parse_empty_input :
    Parse [] = .returned (none, NewModuleGraph) ∧
    NewModuleGraph.Mods = [] ∧ NewModuleGraph.ModIdsMap = [] ∧
    NewModuleGraph.Dependencies = [] :=
  ⟨rfl, rfl, rfl, rfl⟩

theorem GoMap.get_of_mem_nodup {K V : Type} [DecidableEq K] (m : GoMap K V)
    (hn : (GoMap.keys m).Nodup) (e : K × V) (he : e ∈ m) : GoMap.get m e.1 = some e.2 := by
  induction m with
  | nil => simp at he
  | cons e0 rest ih =>
    obtain ⟨k0, v0⟩ := e0
    simp only [GoMap.keys, List.map_cons, List.nodup_cons] at hn
    rcases List.mem_cons.mp he with h | h
    · rw [h]
      simp [GoMap.get]
    · have hne : k0 ≠ e.1 := by
        intro hk
        exact hn.1 (hk ▸ List.mem_map_of_mem Prod.fst h)
      simp only [GoMap.get, hne, if_false]
      exact ih hn.2 h

/-- C19. In a graph that `Parse` has built, every key of `Dependencies` is a key of
`ModIdsMap` and a value of `Mods` and has a non-empty adjacency list, and every
identifier in an adjacency list is a key of `ModIdsMap` and a value of `Mods`. -/
theorem Parse_edges_consistent (input : List Char) (g : ModuleGraph)
    (h : parsed input = some g) :
    ∀ e ∈ g.Dependencies,
      e.1 ∈ GoMap.keys g.ModIdsMap ∧ (∃ l, GoMap.get g.Mods l = some e.1) ∧ e.2 ≠ [] ∧
      ∀ d ∈ e.2, d ∈ GoMap.keys g.ModIdsMap ∧ ∃ l, GoMap.get g.Mods l = some d := by
  obtain ⟨hb, _, hn, hk, hd⟩ := parsed_wellFormed input g h
  have hval : ∀ i, i ∈ GoMap.keys g.ModIdsMap → ∃ l, GoMap.get g.Mods l = some i := by
    intro i hi
    obtain ⟨l, hl⟩ := (GoMap.mem_keys_iff _ _).mp hi
    exact ⟨l, (hb l i).mpr hl⟩
  intro e he
  have hget := GoMap.get_of_mem_nodup g.Dependencies hn e he
  have hdeps : g.deps e.1 = e.2 := by simp [ModuleGraph.deps, hget]
  have hkey : e.1 ∈ GoMap.keys g.Dependencies := List.mem_map_of_mem Prod.fst he
  obtain ⟨h1, h2⟩ := hk e.1 hkey
  refine ⟨h1, hval _ h1, hdeps ▸ h2, ?_⟩
  intro d hdm
  have hdn := hd e.1 d (hdeps ▸ hdm)
  exact ⟨hdn, hval _ hdn⟩

/-- Witness of C19 on the chain a, b, c. -/
theorem Parse_edges_consistent_witness :
    parsed chainInput = some chainGraph ∧
    ∀ e ∈ chainGraph.Dependencies,
      e.1 ∈ GoMap.keys chainGraph.ModIdsMap ∧
      (∃ l, GoMap.get chainGraph.Mods l = some e.1) ∧ e.2 ≠ [] ∧
      ∀ d ∈ e.2, d ∈ GoMap.keys chainGraph.ModIdsMap ∧
        ∃ l, GoMap.get chainGraph.Mods l = some d :=
  ⟨by decide, Parse_edges_consistent chainInput chainGraph (by decide)⟩

/-! ## White space around tokens -/

theorem IsBlank_reversed {w : List Char} (h : IsBlank w) : IsBlank w.reverse :=
  fun c hc => h c (List.mem_reverse.mp hc)

theorem TrimSpace_pad (w0 s w1 : List Char) (h0 : IsBlank w0) (h1 : IsBlank w1) :
    TrimSpace (w0 ++ s ++ w1) = TrimSpace s := by
  unfold TrimSpace
  rw [List.append_assoc, List.dropWhile_append_of_pos h0, List.dropWhile_append]
  by_cases he : (s.dropWhile IsSpace).isEmpty = true
  · rw [if_pos he]
    have hs : s.dropWhile IsSpace = [] := List.isEmpty_iff.mp he
    have hw : w1.dropWhile IsSpace = [] := List.dropWhile_eq_nil_iff.mpr h1
    rw [hs, hw]
  · rw [if_neg he, List.reverse_append, List.dropWhile_append_of_pos (IsBlank_reversed h1)]

theorem lineLabels_eq_map (line : List Char) :
    lineLabels line = (lineTokens line).map (fun t => (ReplaceAt t.1, ReplaceAt t.2)) := by
  unfold lineLabels lineTokens
  cases Split line with
  | nil => rfl
  | cons r0 rs =>
    cases rs with
    | nil => rfl
    | cons r1 rs1 => rfl

theorem parseLoop_congr (x y : List Char)
    (h : ∀ st, parseLoop st [] x = parseLoop st [] y) (pre : List Char)
    (hpre : EndsLine pre) (st : ParseState) (acc : List Char) (hacc : pre = [] → acc = []) :
    parseLoop st acc (pre ++ x) = parseLoop st acc (pre ++ y) := by
  induction pre generalizing st acc with
  | nil =>
    rw [hacc rfl]
    exact h st
  | cons c pre ih =>
    have hlast : (c :: pre).getLast? = some '\n' := by
      rcases hpre with h1 | h1
      · exact absurd h1 (List.cons_ne_nil _ _)
      · exact h1
    rw [List.cons_append, List.cons_append, parseLoop, parseLoop]
    by_cases hc : c = '\n'
    · simp only [hc, if_true]
      have hpre1 : EndsLine pre := by
        cases pre with
        | nil => exact Or.inl rfl
        | cons d ds =>
          right
          rw [List.getLast?_cons_cons] at hlast
          exact hlast
      cases lineLabels (acc ++ ['\n']) with
      | none => rfl
      | some ab => exact ih hpre1 _ [] (fun _ => rfl)
    · simp only [hc, if_false]
      cases pre with
      | nil =>
        simp only [List.getLast?_singleton, Option.some.injEq] at hlast
        exact absurd hlast hc
      | cons d ds =>
        rw [List.getLast?_cons_cons] at hlast
        exact ih (Or.inr hlast) _ _ (fun hn => absurd hn (List.cons_ne_nil _ _))

theorem Parse_line_congr (d p more : List Char) (hd : '\n' ∉ d) (hp : '\n' ∉ p)
    (hl : lineLabels (d ++ ['\n']) = lineLabels (p ++ ['\n'])) (pre : List Char)
    (hpre : EndsLine pre) :
    Parse (pre ++ (d ++ '\n' :: more)) = Parse (pre ++ (p ++ '\n' :: more)) := by
  unfold Parse
  apply parseLoop_congr _ _ _ pre hpre _ _ (fun _ => rfl)
  intro st
  rw [parseLoop_line st [] d more hd, parseLoop_line st [] p more hp]
  simp only [List.nil_append]
  rw [hl]

theorem not_mem_append3 (c : Char) (x y z : List Char) (hx : c ∉ x) (hy : c ∉ y)
    (hz : c ∉ z) : c ∉ x ++ y ++ z := by
  simp only [List.mem_append, not_or]
  exact ⟨⟨hx, hy⟩, hz⟩

theorem lineLabels_extra_tokens (a b rest : List Char) (ha : IsLabel a) (hb : IsLabel b) :
    lineLabels (a ++ ' ' :: (b ++ ' ' :: rest)) = some (ReplaceAt a, ReplaceAt b) := by
  unfold lineLabels
  rw [Split_append_space a _ ha.no_space, Split_append_space b _ hb.no_space]
  simp only [TrimSpace_label a ha, TrimSpace_label b hb]

/-- C16. A line with three or more tokens separated by single spaces is not rejected:
`Parse` uses the first two tokens and ignores the rest of the line, so the result is
the one for the line cut after the second token, wherever the line stands in the
input; no node is made for a further token. -/
theorem Parse_ignores_extra_tokens (pre more a b rest : List Char) (hpre : EndsLine pre)
    (ha : IsLabel a) (hb : IsLabel b) (hrest : '\n' ∉ rest) :
    lineLabels (a ++ ' ' :: (b ++ ' ' :: rest) ++ ['\n']) = some (ReplaceAt a, ReplaceAt b) ∧
    Parse (pre ++ ((a ++ ' ' :: (b ++ ' ' :: rest)) ++ '\n' :: more)) =
      Parse (pre ++ ((a ++ ' ' :: b) ++ '\n' :: more)) := by
  have e1 : a ++ ' ' :: (b ++ ' ' :: rest) ++ ['\n'] =
      a ++ ' ' :: (b ++ ' ' :: (rest ++ ['\n'])) := by simp
  have e2 : (a ++ ' ' :: b) ++ ['\n'] = a ++ ' ' :: (b ++ ['\n']) := by simp
  have h1 : lineLabels (a ++ ' ' :: (b ++ ' ' :: rest) ++ ['\n']) =
      some (ReplaceAt a, ReplaceAt b) := by
    rw [e1]
    exact lineLabels_extra_tokens a b _ ha hb
  refine ⟨h1, ?_⟩
  apply Parse_line_congr
  · intro hm
    rcases List.mem_append.mp hm with h | h
    · exact ha.no_newline h
    · rcases List.mem_cons.mp h with h | h
      · exact absurd h (by decide)
      · rcases List.mem_append.mp h with h | h
        · exact hb.no_newline h
        · rcases List.mem_cons.mp h with h | h
          · exact absurd h (by decide)
          · exact hrest h
  · intro hm
    rcases List.mem_append.mp hm with h | h
    · exact ha.no_newline h
    · rcases List.mem_cons.mp h with h | h
      · exact absurd h (by decide)
      · exact hb.no_newline h
  · rw [h1, e2, lineLabels_wellformed a b ha hb]
  · exact hpre

/-- Witness of C16: scenario 5, the line `x y z`. -/
theorem Parse_ignores_extra_tokens_witness :
    Parse "x y z\n".toList = Parse "x y\n".toList ∧
    Parse "x y z\n".toList =
      .returned (none, { Mods := [("x".toList, 1), ("y".toList, 2)]
                         Dependencies := [(1, [2])]
                         ModIdsMap := [(1, "x".toList), (2, "y".toList)] }) :=
  ⟨(Parse_ignores_extra_tokens [] [] "x".toList "y".toList "z".toList (by decide)
      (by decide) (by decide) (by decide)).2, by decide⟩

/-- C15 as stated fails: with two spaces between the labels `Parse` takes the empty text
between them as the second label, with a space before the first label it takes the empty
text as the first label, and with a tab as the only separator the line has no second
token at all. -/
theorem Parse_whitespace_run_counterexample :
    Parse "a  b\n".toList =
      .returned (none, { Mods := [("a".toList, 1), ([], 2)]
                         Dependencies := [(1, [2])]
                         ModIdsMap := [(1, "a".toList), (2, [])] }) ∧
    Parse "a  b\n".toList ≠ Parse "a b\n".toList ∧
    Parse " a b\n".toList ≠ Parse "a b\n".toList ∧
    Parse "a\tb\n".toList = .panicked := by
  decide

/-- C15, amended. When exactly one space character stands between the two labels, white
space other than the space character (a tab, a carriage return) may stand before and
after either label: `Parse` records the edge from the first label to the second, the
same result as for the plain line `first second`, wherever the line stands in the
input. -/
theorem Parse_single_space_with_padding (pre more a b w0 w1 w2 w3 : List Char)
    (hpre : EndsLine pre) (ha : IsLabel a) (hb : IsLabel b)
    (h0 : IsPad w0) (h1 : IsPad w1) (h2 : IsPad w2) (h3 : IsPad w3) :
    lineLabels ((w0 ++ a ++ w1) ++ ' ' :: (w2 ++ b ++ w3) ++ ['\n']) =
      some (ReplaceAt a, ReplaceAt b) ∧
    Parse (pre ++ (((w0 ++ a ++ w1) ++ ' ' :: (w2 ++ b ++ w3)) ++ '\n' :: more)) =
      Parse (pre ++ ((a ++ ' ' :: b) ++ '\n' :: more)) := by
  have hsp1 : ' ' ∉ w0 ++ a ++ w1 := not_mem_append3 _ _ _ _ h0.2.1 ha.no_space h1.2.1
  have hsp2 : ' ' ∉ (w2 ++ b ++ w3) ++ ['\n'] := by
    intro hm
    rcases List.mem_append.mp hm with h | h
    · exact not_mem_append3 _ _ _ _ h2.2.1 hb.no_space h3.2.1 h
    · exact absurd (List.mem_singleton.mp h) (by decide)
  have hblank : IsBlank (w3 ++ ['\n']) := by
    intro c hc
    rcases List.mem_append.mp hc with h | h
    · exact h3.1 c h
    · rw [List.mem_singleton.mp h]
      exact IsSpace_newline
  have e1 : (w0 ++ a ++ w1) ++ ' ' :: (w2 ++ b ++ w3) ++ ['\n'] =
      (w0 ++ a ++ w1) ++ ' ' :: ((w2 ++ b ++ w3) ++ ['\n']) := by simp
  have e2 : (a ++ ' ' :: b) ++ ['\n'] = a ++ ' ' :: (b ++ ['\n']) := by simp
  have e3 : (w2 ++ b ++ w3) ++ ['\n'] = w2 ++ b ++ (w3 ++ ['\n']) := by simp
  have hl : lineLabels ((w0 ++ a ++ w1) ++ ' ' :: (w2 ++ b ++ w3) ++ ['\n']) =
      some (ReplaceAt a, ReplaceAt b) := by
    rw [e1]
    unfold lineLabels
    rw [Split_append_space _ _ hsp1, Split_no_space _ hsp2]
    simp only
    rw [TrimSpace_pad w0 a w1 h0.1 h1.1, e3, TrimSpace_pad w2 b _ h2.1 hblank,
      TrimSpace_label a ha, TrimSpace_label b hb]
  refine ⟨hl, ?_⟩
  apply Parse_line_congr
  · intro hm
    rcases List.mem_append.mp hm with h | h
    · exact not_mem_append3 _ _ _ _ h0.2.2 ha.no_newline h1.2.2 h
    · rcases List.mem_cons.mp h with h | h
      · exact absurd h (by decide)
      · exact not_mem_append3 _ _ _ _ h2.2.2 hb.no_newline h3.2.2 h
  · intro hm
    rcases List.mem_append.mp hm with h | h
    · exact ha.no_newline h
    · rcases List.mem_cons.mp h with h | h
      · exact absurd h (by decide)
      · exact hb.no_newline h
  · rw [hl, e2, lineLabels_wellformed a b ha hb]
  · exact hpre

/-- Witness of C15, amended: tabs around the labels and a carriage return at the end. -/
theorem Parse_single_space_with_padding_witness :
    Parse "\ta\t \tb\r\n".toList = Parse "a b\n".toList :=
  (Parse_single_space_with_padding [] [] "a".toList "b".toList "\t".toList "\t".toList
    "\t".toList "\r".toList (by decide) (by decide) (by decide) (by decide) (by decide)
    (by decide) (by decide)).2

/-! ## The statements of the document -/

theorem rangeDeps_perm (deps : GoMap Nat (List Nat)) : (rangeDeps deps).Perm deps :=
  List.perm_insertionSort _ deps

theorem rangeMods_perm (mods : GoMap (List Char) Nat) : (rangeMods mods).Perm mods :=
  List.perm_insertionSort _ mods

theorem rangeDeps_sorted (deps : GoMap Nat (List Nat)) :
    (rangeDeps deps).Pairwise (fun a b => a.1 ≤ b.1) := by
  haveI : IsTotal (Nat × List Nat) (fun a b => a.1 ≤ b.1) := ⟨fun a b => Nat.le_total a.1 b.1⟩
  haveI : IsTrans (Nat × List Nat) (fun a b => a.1 ≤ b.1) :=
    ⟨fun _ _ _ h1 h2 => Nat.le_trans h1 h2⟩
  exact List.sorted_insertionSort (fun a b => a.1 ≤ b.1) deps

theorem GoMap.get_perm {K V : Type} [DecidableEq K] (m1 m2 : GoMap K V) (hp : m1.Perm m2)
    (hn : (GoMap.keys m1).Nodup) (k : K) : GoMap.get m1 k = GoMap.get m2 k := by
  cases h2 : GoMap.get m2 k with
  | some v =>
    have hm : (k, v) ∈ m1 := hp.mem_iff.mpr (GoMap.mem_of_get m2 k v h2)
    exact GoMap.get_of_mem_nodup m1 hn (k, v) hm
  | none =>
    have hk2 : k ∉ GoMap.keys m2 := (GoMap.not_mem_keys_iff _ _).mpr h2
    have hk1 : k ∉ GoMap.keys m1 := fun hk => hk2 ((hp.map Prod.fst).mem_iff.mp hk)
    exact (GoMap.not_mem_keys_iff _ _).mp hk1

theorem edgeStmts_flatten (L : List (Nat × List Nat)) :
    (L.map (fun e => (e.2.map (edgeStmt e.1)).flatten)).flatten =
      (((L.map (fun e => e.2.map (fun d => (e.1, d)))).flatten).map
        (fun e => edgeStmt e.1 e.2)).flatten := by
  induction L with
  | nil => rfl
  | cons e L ih =>
    simp only [List.map_cons, List.flatten_cons, List.map_append, List.flatten_append, ih,
      List.map_map]
    rfl

theorem pairs_sorted (L : List (Nat × List Nat))
    (hs : L.Pairwise (fun a b => a.1 ≤ b.1)) :
    ((L.map (fun e => e.2.map (fun d => (e.1, d)))).flatten).Pairwise
      (fun x y => x.1 ≤ y.1) := by
  induction L with
  | nil => simp
  | cons e L ih =>
    obtain ⟨h1, h2⟩ := List.pairwise_cons.mp hs
    simp only [List.map_cons, List.flatten_cons]
    rw [List.pairwise_append]
    refine ⟨?_, ih h2, ?_⟩
    · rw [List.pairwise_map]
      exact List.pairwise_of_forall (fun _ _ => Nat.le_refl _)
    · intro x hx y hy
      obtain ⟨d, _, rfl⟩ := List.mem_map.mp hx
      obtain ⟨l, hl, hyl⟩ := List.mem_flatten.mp hy
      obtain ⟨e1, he1, rfl⟩ := List.mem_map.mp hl
      obtain ⟨d1, _, rfl⟩ := List.mem_map.mp hyl
      exact h1 e1 he1

theorem pairs_filter (L : List (Nat × List Nat)) (hn : (GoMap.keys L).Nodup) (s : Nat) :
    (((L.map (fun e => e.2.map (fun d => (e.1, d)))).flatten).filter
      (fun x => decide (x.1 = s))).map Prod.snd = (GoMap.get L s).getD [] := by
  induction L with
  | nil => rfl
  | cons e L ih =>
    obtain ⟨k, v⟩ := e
    simp only [GoMap.keys, List.map_cons, List.nodup_cons] at hn
    have ih1 := ih hn.2
    simp only [List.map_cons, List.flatten_cons, List.filter_append, List.map_append, ih1]
    by_cases hk : k = s
    · subst hk
      have hnone : GoMap.get L k = none := (GoMap.not_mem_keys_iff _ _).mp hn.1
      have hall : (v.map (fun d => (k, d))).filter (fun x => decide (x.1 = k)) =
          v.map (fun d => (k, d)) := by
        apply List.filter_eq_self.mpr
        intro x hx
        obtain ⟨d, _, rfl⟩ := List.mem_map.mp hx
        simp
      rw [hall, hnone]
      simp [GoMap.get, List.map_map, Function.comp]
    · have hnil : (v.map (fun d => (k, d))).filter (fun x => decide (x.1 = s)) = [] := by
        apply List.filter_eq_nil_iff.mpr
        intro x hx
        obtain ⟨d, _, rfl⟩ := List.mem_map.mp hx
        simp [hk]
      rw [hnil]
      simp [GoMap.get, hk]

theorem renderGraph_eq (g : ModuleGraph) :
    renderGraph g = "digraph \x7b".toList ++
      (if 15 < GoMap.len g.Dependencies then "rankdir=LR;\n".toList else []) ++
      "node [shape=box];\n".toList ++
      ((rangeMods g.Mods).map nodeStmt).flatten ++
      ((edgeList g.Dependencies).map (fun e => edgeStmt e.1 e.2)).flatten ++
      "\x7d\n".toList := by
  unfold renderGraph execTemplate edgeList
  rw [edgeStmts_flatten]
  by_cases h : GoMap.len g.Dependencies > 15
  · have h1 : 15 < GoMap.len g.Dependencies := h
    simp only [h, h1, if_true]
  · have h1 : ¬ 15 < GoMap.len g.Dependencies := h
    have hne : ¬ (([] : List Char) = "horizontal".toList) := by decide
    simp only [h, h1, if_false, hne]

theorem edgeList_spec (g : ModuleGraph) (hk : (GoMap.keys g.Dependencies).Nodup) :
    (edgeList g.Dependencies).Pairwise (fun x y => x.1 ≤ y.1) ∧
    ∀ s, ((edgeList g.Dependencies).filter (fun e => decide (e.1 = s))).map Prod.snd =
      g.deps s := by
  have hp := rangeDeps_perm g.Dependencies
  have hn : (GoMap.keys (rangeDeps g.Dependencies)).Nodup :=
    ((hp.map Prod.fst).nodup_iff).mpr hk
  refine ⟨pairs_sorted _ (rangeDeps_sorted _), ?_⟩
  intro s
  unfold edgeList ModuleGraph.deps
  rw [pairs_filter _ hn s, GoMap.get_perm _ _ hp hn s]

theorem Render_shown_nodup (m : ModuleGraph) (hk : (GoMap.keys m.Dependencies).Nodup)
    (fuel : Nat) (order : GoMap Nat Nat → GoMap Nat Nat) (args : List Char)
    (r : RenderResult) (hr : Render fuel order m args = some r) :
    (GoMap.keys r.shown.Dependencies).Nodup ∧ (r.err = none → r.written = renderGraph r.shown) := by
  by_cases h : TrimSpace args = []
  · rw [Render_no_focus fuel order m args h] at hr
    cases hr
    exact ⟨hk, fun _ => rfl⟩
  · cases hp : GoMap.get m.Mods (ReplaceAt (TrimSpace args)) with
    | none =>
      rw [Render_unknown fuel order m args h hp] at hr
      cases hr
      exact ⟨hk, fun hc => absurd hc (by simp)⟩
    | some modId =>
      cases hv : bfs fuel m modId with
      | none =>
        rw [Render_out_of_fuel fuel order m args modId h hp hv] at hr
        cases hr
      | some visited =>
        rw [Render_found fuel order m args modId visited h hp hv] at hr
        cases hr
        refine ⟨?_, fun _ => rfl⟩
        exact nodup_keys_copyVisit _ _ (by simp [NewModuleGraph, GoMap.keys])

theorem Render_returns (m : ModuleGraph) (fuel : Nat) (hfuel : (allDests m).length < fuel)
    (order : GoMap Nat Nat → GoMap Nat Nat) (args : List Char) :
    ∃ r, Render fuel order m args = some r := by
  by_cases h : TrimSpace args = []
  · exact ⟨_, Render_no_focus fuel order m args h⟩
  · cases hp : GoMap.get m.Mods (ReplaceAt (TrimSpace args)) with
    | none => exact ⟨_, Render_unknown fuel order m args h hp⟩
    | some modId =>
      obtain ⟨visited, hv⟩ := bfs_terminates m modId fuel hfuel
      exact ⟨_, Render_found fuel order m args modId visited h hp hv⟩

/-- The three ways in which `Render` returns: without a focus it shows the receiver; with
a focus label of the node table it shows the graph built from the visited nodes; with an
unknown focus it returns the error and writes nothing. Without error the text written is
the template executed on the graph shown. -/
theorem Render_shown_cases (fuel : Nat) (order : GoMap Nat Nat → GoMap Nat Nat)
    (m : ModuleGraph) (args : List Char) (r : RenderResult)
    (hr : Render fuel order m args = some r) :
    (TrimSpace args = [] → r.err = none ∧ r.shown = m) ∧
    (∀ modId, TrimSpace args ≠ [] →
      GoMap.get m.Mods (ReplaceAt (TrimSpace args)) = some modId →
      r.err = none ∧ ∃ visited, bfs fuel m modId = some visited ∧
        r.shown = (copyVisited m (order visited)).filterModuleGraph) ∧
    (TrimSpace args ≠ [] → GoMap.get m.Mods (ReplaceAt (TrimSpace args)) = none →
      r.err = some (notExisted (TrimSpace args)) ∧ r.written = []) ∧
    (r.err = none → r.written = renderGraph r.shown) := by
  by_cases h : TrimSpace args = []
  · rw [Render_no_focus fuel order m args h] at hr
    cases hr
    exact ⟨fun _ => ⟨rfl, rfl⟩, fun _ h1 _ => absurd h h1, fun h1 _ => absurd h h1,
      fun _ => rfl⟩
  · cases hp : GoMap.get m.Mods (ReplaceAt (TrimSpace args)) with
    | none =>
      rw [Render_unknown fuel order m args h hp] at hr
      cases hr
      exact ⟨fun h1 => absurd h1 h, fun _ _ h1 => (by cases h1), fun _ _ => ⟨rfl, rfl⟩,
        fun hc => (by cases hc)⟩
    | some modId =>
      cases hv : bfs fuel m modId with
      | none =>
        rw [Render_out_of_fuel fuel order m args modId h hp hv] at hr
        cases hr
      | some visited =>
        rw [Render_found fuel order m args modId visited h hp hv] at hr
        cases hr
        refine ⟨fun h1 => absurd h1 h, fun modId1 _ h1 => ?_, fun _ h1 => (by cases h1),
          fun _ => rfl⟩
        cases h1
        exact ⟨rfl, visited, hv, rfl⟩

/-- C11. For every graph (a map has distinct keys) a call of `Render` returns. Without a
focus it returns no error, shows the receiver `m` and writes `digraph {`, the layout
statement when `Dependencies` of `m` has more than 15 keys, `node [shape=box];`, one
node statement for each entry of `Mods` of `m`, the edge statements and the closing
brace; the edge statements are ordered by source, and those of one source `s` are, in
order, one for each element of the adjacency list of `s` in `m`, a repeated destination
once per occurrence. With a focus label of the node table it returns no error and shows
the graph built from the visited nodes; with an unknown focus it returns the error and
writes nothing. Whenever no error is returned the text written is the same document of
the graph shown. -/
theorem Render_document_statements (m : ModuleGraph)
    (hk : (GoMap.keys m.Dependencies).Nodup) (fuel : Nat)
    (hfuel : (allDests m).length < fuel) (order : GoMap Nat Nat → GoMap Nat Nat)
    (args : List Char) :
    ∃ r, Render fuel order m args = some r ∧
      (TrimSpace args = [] → r.err = none ∧ r.shown = m ∧
        r.written = "digraph \x7b".toList ++
          (if 15 < GoMap.len m.Dependencies then "rankdir=LR;\n".toList else []) ++
          "node [shape=box];\n".toList ++
          ((rangeMods m.Mods).map nodeStmt).flatten ++
          ((edgeList m.Dependencies).map (fun e => edgeStmt e.1 e.2)).flatten ++
          "\x7d\n".toList ∧
        (rangeMods m.Mods).Perm m.Mods ∧
        (edgeList m.Dependencies).Pairwise (fun x y => x.1 ≤ y.1) ∧
        ∀ s, ((edgeList m.Dependencies).filter (fun e => decide (e.1 = s))).map
          Prod.snd = m.deps s) ∧
      (∀ modId, TrimSpace args ≠ [] →
        GoMap.get m.Mods (ReplaceAt (TrimSpace args)) = some modId →
        r.err = none ∧ ∃ visited, bfs fuel m modId = some visited ∧
          r.shown = (copyVisited m (order visited)).filterModuleGraph) ∧
      (TrimSpace args ≠ [] → GoMap.get m.Mods (ReplaceAt (TrimSpace args)) = none →
        r.err = some (notExisted (TrimSpace args)) ∧ r.written = []) ∧
      (r.err = none →
        r.written = "digraph \x7b".toList ++
          (if 15 < GoMap.len r.shown.Dependencies then "rankdir=LR;\n".toList else []) ++
          "node [shape=box];\n".toList ++
          ((rangeMods r.shown.Mods).map nodeStmt).flatten ++
          ((edgeList r.shown.Dependencies).map (fun e => edgeStmt e.1 e.2)).flatten ++
          "\x7d\n".toList ∧
        (rangeMods r.shown.Mods).Perm r.shown.Mods ∧
        (edgeList r.shown.Dependencies).Pairwise (fun x y => x.1 ≤ y.1) ∧
        ∀ s, ((edgeList r.shown.Dependencies).filter (fun e => decide (e.1 = s))).map
          Prod.snd = r.shown.deps s) := by
  obtain ⟨r, hr⟩ := Render_returns m fuel hfuel order args
  obtain ⟨hn, hw⟩ := Render_shown_nodup m hk fuel order args r hr
  obtain ⟨p1, p2, p3, -⟩ := Render_shown_cases fuel order m args r hr
  have hdoc : r.err = none →
      r.written = "digraph \x7b".toList ++
        (if 15 < GoMap.len r.shown.Dependencies then "rankdir=LR;\n".toList else []) ++
        "node [shape=box];\n".toList ++
        ((rangeMods r.shown.Mods).map nodeStmt).flatten ++
        ((edgeList r.shown.Dependencies).map (fun e => edgeStmt e.1 e.2)).flatten ++
        "\x7d\n".toList ∧
      (rangeMods r.shown.Mods).Perm r.shown.Mods ∧
      (edgeList r.shown.Dependencies).Pairwise (fun x y => x.1 ≤ y.1) ∧
      ∀ s, ((edgeList r.shown.Dependencies).filter (fun e => decide (e.1 = s))).map
        Prod.snd = r.shown.deps s := by
    intro herr
    obtain ⟨h1, h2⟩ := edgeList_spec r.shown hn
    exact ⟨(hw herr).trans (renderGraph_eq r.shown), rangeMods_perm _, h1, h2⟩
  refine ⟨r, hr, fun h => ?_, p2, p3, hdoc⟩
  obtain ⟨herr, hsh⟩ := p1 h
  have hd := hdoc herr
  rw [hsh] at hd
  exact ⟨herr, hsh, hd⟩

/-- Witness of C11: scenario 1, three node statements, the edges 1 -> 2 and 2 -> 3, no
layout statement. -/
theorem Render_document_statements_witness :
    (∃ r, Render 3 id chainGraph [] = some r ∧ r.err = none ∧ r.shown = chainGraph ∧
      (edgeList chainGraph.Dependencies).Pairwise (fun x y => x.1 ≤ y.1) ∧
      ∀ s, ((edgeList chainGraph.Dependencies).filter (fun e => decide (e.1 = s))).map
        Prod.snd = chainGraph.deps s) ∧
    (run 3 id chainInput []).map (fun r => (r.err, r.shown, r.written)) =
      some (none, chainGraph, ("digraph \x7bnode [shape=box];\n" ++
        "1 [label=\"a\n1\"];\n2 [label=\"b\n1\"];\n3 [label=\"c\n1\"];\n" ++
        "1 -> 2;\n2 -> 3;\n\x7d\n").toList) ∧
    edgeList chainGraph.Dependencies = [(1, 2), (2, 3)] :=
  ⟨(Render_document_statements chainGraph (by decide) 3 (by decide) id []).imp
      (fun _ hr => ⟨hr.1, (hr.2.1 (by decide)).1, (hr.2.1 (by decide)).2.1,
        (hr.2.1 (by decide)).2.2.2.2.1, (hr.2.1 (by decide)).2.2.2.2.2⟩),
    by decide, by decide⟩

/-! ## Graphs without edges -/

theorem deps_of_ZeroEdges (m : ModuleGraph) (hz : ZeroEdges m) (s : Nat) : m.deps s = [] := by
  unfold ModuleGraph.deps
  cases hg : GoMap.get m.Dependencies s with
  | none => rfl
  | some l => exact hz (s, l) (GoMap.mem_of_get _ _ _ hg)

theorem edgeList_of_ZeroEdges (m : ModuleGraph) (hz : ZeroEdges m) :
    edgeList m.Dependencies = [] := by
  unfold edgeList
  rw [List.flatten_eq_nil_iff]
  intro l hl
  obtain ⟨e, he, rfl⟩ := List.mem_map.mp hl
  rw [hz e ((rangeDeps_perm _).mem_iff.mp he)]
  rfl

theorem renderGraph_of_ZeroEdges (g : ModuleGraph) (hz : ZeroEdges g)
    (hlen : GoMap.len g.Dependencies ≤ 15) :
    renderGraph g = "digraph \x7bnode [shape=box];\n".toList ++
      ((rangeMods g.Mods).map nodeStmt).flatten ++ "\x7d\n".toList ∧
    ¬ HasDirectionHint (renderGraph g) := by
  have hnot : ¬ 15 < GoMap.len g.Dependencies := by omega
  refine ⟨?_, fun hc => hnot ((hasDirectionHint_renderGraph g).mp hc)⟩
  rw [renderGraph_eq, edgeList_of_ZeroEdges g hz, if_neg hnot]
  have e : "digraph \x7bnode [shape=box];\n".toList =
      "digraph \x7b".toList ++ "node [shape=box];\n".toList := by decide
  rw [e]
  simp

theorem bfs_of_leaf (m : ModuleGraph) (modId fuel : Nat) (hleaf : m.deps modId = [])
    (hfuel : 0 < fuel) : bfs fuel m modId = some [(modId, modId)] := by
  obtain ⟨n, rfl⟩ : ∃ n, fuel = n + 1 := ⟨fuel - 1, by omega⟩
  unfold bfs
  rw [bfsLoop_succ]
  have e : expandFrontier m [(modId, modId)] [modId] = ([(modId, modId)], []) := by
    simp [expandFrontier, hleaf, visitDeps]
  rw [e]
  exact bfsLoop_nil _ _ _

theorem copyVisited_leaf (m : ModuleGraph) (modId : Nat) (hleaf : m.deps modId = []) :
    (copyVisited m [(modId, modId)]).filterModuleGraph =
      { Mods := [(m.label modId, modId)], Dependencies := [(modId, [])],
        ModIdsMap := [] } := by
  simp [copyVisited, copyVisit, NewModuleGraph, GoMap.set, ModuleGraph.label, hleaf]

/-- A graph that `Parse` has built and that has no edge has no key in `Dependencies`:
`Parse` stores a key together with a destination. -/
theorem Dependencies_nil_of_ZeroEdges (g : ModuleGraph) (hw : WellFormed g)
    (hz : ZeroEdges g) : g.Dependencies = [] := by
  rw [List.eq_nil_iff_forall_not_mem]
  intro e he
  have hk : e.1 ∈ GoMap.keys g.Dependencies := List.mem_map.mpr ⟨e, he, rfl⟩
  exact (hw.2.2.2.1 e.1 hk).2 (deps_of_ZeroEdges g hz e.1)

theorem bfsTrace_nil (m : ModuleGraph) (fuel : Nat) (visited : GoMap Nat Nat) :
    bfsTrace m fuel visited [] = some (visited, []) := by
  cases fuel <;> rfl

theorem bfsTrace_succ (m : ModuleGraph) (fuel : Nat) (visited : GoMap Nat Nat) (f : Nat)
    (fr : List Nat) :
    bfsTrace m (fuel + 1) visited (f :: fr) =
      (bfsTrace m fuel (expandFrontier m visited (f :: fr)).1
        (expandFrontier m visited (f :: fr)).2).map
        (fun r => (r.1, (f :: fr) :: r.2)) := rfl

theorem bfsTrace_fst (m : ModuleGraph) (fuel : Nat) (visited : GoMap Nat Nat)
    (fr : List Nat) : (bfsTrace m fuel visited fr).map Prod.fst = bfsLoop m fuel visited fr := by
  induction fuel generalizing visited fr with
  | zero =>
    cases fr with
    | nil => rfl
    | cons f fr => rfl
  | succ fuel ih =>
    cases fr with
    | nil => rfl
    | cons f fr =>
      rw [bfsTrace_succ, bfsLoop_succ, ← ih, Option.map_map]
      rfl

theorem nodup_tmp_visitDeps (ds : List Nat) (acc : GoMap Nat Nat × List Nat)
    (hn : acc.2.Nodup) (hs : ∀ x ∈ acc.2, x ∈ GoMap.keys acc.1) :
    (visitDeps acc ds).2.Nodup ∧ ∀ x ∈ (visitDeps acc ds).2, x ∈ GoMap.keys (visitDeps acc ds).1 := by
  induction ds generalizing acc with
  | nil => exact ⟨hn, hs⟩
  | cons d ds ih =>
    rw [visitDeps_cons]
    apply ih
    · cases hg : GoMap.get acc.1 d with
      | none =>
        have hd : d ∉ GoMap.keys acc.1 := (GoMap.not_mem_keys_iff _ _).mpr hg
        show (acc.2 ++ [d]).Nodup
        rw [List.nodup_append]
        refine ⟨hn, List.nodup_singleton _, ?_⟩
        intro a ha hb
        exact hd ((List.mem_singleton.mp hb) ▸ hs a ha)
      | some v => exact hn
    · cases hg : GoMap.get acc.1 d with
      | none =>
        intro x hx
        show x ∈ GoMap.keys (GoMap.set acc.1 d d)
        rw [GoMap.mem_keys_set]
        rcases List.mem_append.mp hx with h | h
        · exact Or.inr (hs x h)
        · exact Or.inl (List.mem_singleton.mp h)
      | some v => exact hs

theorem nodup_tmp_foldl_visitDeps (m : ModuleGraph) (fr : List Nat)
    (acc : GoMap Nat Nat × List Nat) (hn : acc.2.Nodup)
    (hs : ∀ x ∈ acc.2, x ∈ GoMap.keys acc.1) :
    (List.foldl (fun acc mId => visitDeps acc (m.deps mId)) acc fr).2.Nodup := by
  induction fr generalizing acc with
  | nil => exact hn
  | cons f fr ih =>
    rw [expandFrontier_cons]
    obtain ⟨h1, h2⟩ := nodup_tmp_visitDeps (m.deps f) acc hn hs
    exact ih _ h1 h2

theorem nodup_tmp_expandFrontier (m : ModuleGraph) (visited : GoMap Nat Nat)
    (fr : List Nat) : (expandFrontier m visited fr).2.Nodup :=
  nodup_tmp_foldl_visitDeps m fr (visited, []) List.nodup_nil
    (fun _ hx => absurd hx (List.not_mem_nil _))

theorem bfsTrace_spec (m : ModuleGraph) (fuel : Nat) (visited : GoMap Nat Nat)
    (fr : List Nat) (r : GoMap Nat Nat × List (List Nat)) (hn : fr.Nodup)
    (hs : ∀ x ∈ fr, x ∈ GoMap.keys visited) (hr : bfsTrace m fuel visited fr = some r) :
    r.2.flatten.Nodup ∧
    (∀ x ∈ r.2.flatten, x ∈ fr ∨ x ∉ GoMap.keys visited) ∧
    (∀ x ∈ fr, x ∈ r.2.flatten) ∧
    (∀ x, x ∈ GoMap.keys r.1 ↔ x ∈ GoMap.keys visited ∨ x ∈ r.2.flatten) ∧
    (∀ f ∈ r.2, f ≠ []) ∧
    (fr ≠ [] → r.2.head? = some fr) := by
  induction fuel generalizing visited fr r with
  | zero =>
    cases fr with
    | nil =>
      rw [bfsTrace_nil] at hr
      cases hr
      simp
    | cons f fr => simp [bfsTrace] at hr
  | succ fuel ih =>
    cases fr with
    | nil =>
      rw [bfsTrace_nil] at hr
      cases hr
      simp
    | cons f fr =>
      rw [bfsTrace_succ] at hr
      cases hr1 : bfsTrace m fuel (expandFrontier m visited (f :: fr)).1
          (expandFrontier m visited (f :: fr)).2 with
      | none => simp [hr1] at hr
      | some r1 =>
        rw [hr1] at hr
        simp only [Option.map_some', Option.some.injEq] at hr
        subst hr
        have hsub : ∀ x ∈ (expandFrontier m visited (f :: fr)).2,
            x ∈ GoMap.keys (expandFrontier m visited (f :: fr)).1 := by
          intro x hx
          exact (mem_keys_expandFrontier _ _ _ _).mpr
            (Or.inr ((mem_tmp_expandFrontier _ _ _ _).mp hx).2)
        obtain ⟨a, b, c, d, e, _⟩ :=
          ih _ _ r1 (nodup_tmp_expandFrontier m visited (f :: fr)) hsub hr1
        have hnew : ∀ x ∈ r1.2.flatten, x ∉ GoMap.keys visited := by
          intro x hx
          rcases b x hx with h | h
          · exact ((mem_tmp_expandFrontier _ _ _ _).mp h).1
          · exact fun hv => h ((mem_keys_expandFrontier _ _ _ _).mpr (Or.inl hv))
        refine ⟨?_, ?_, ?_, ?_, ?_, fun _ => rfl⟩
        · show ((f :: fr) ++ r1.2.flatten).Nodup
          rw [List.nodup_append]
          exact ⟨hn, a, fun x hx hy => hnew x hy (hs x hx)⟩
        · intro x hx
          rcases List.mem_append.mp (show x ∈ (f :: fr) ++ r1.2.flatten from hx) with h | h
          · exact Or.inl h
          · exact Or.inr (hnew x h)
        · intro x hx
          exact List.mem_append_left _ hx
        · intro x
          show x ∈ GoMap.keys r1.1 ↔ x ∈ GoMap.keys visited ∨ x ∈ (f :: fr) ++ r1.2.flatten
          rw [d x, List.mem_append]
          constructor
          · rintro (h | h)
            · by_cases hv : x ∈ GoMap.keys visited
              · exact Or.inl hv
              · have hx2 : x ∈ (expandFrontier m visited (f :: fr)).2 :=
                  (mem_tmp_expandFrontier _ _ _ _).mpr
                    ⟨hv, ((mem_keys_expandFrontier _ _ _ _).mp h).resolve_left hv⟩
                exact Or.inr (Or.inr (c x hx2))
            · exact Or.inr (Or.inr h)
          · rintro (h | h | h)
            · exact Or.inl ((mem_keys_expandFrontier _ _ _ _).mpr (Or.inl h))
            · exact Or.inl ((mem_keys_expandFrontier _ _ _ _).mpr (Or.inl (hs x h)))
            · exact Or.inr h
        · intro g hg
          rcases List.mem_cons.mp hg with h | h
          · rw [h]
            exact List.cons_ne_nil _ _
          · exact e g h

theorem bfsTrace_of_bfs (m : ModuleGraph) (fuel modId : Nat) (visited : GoMap Nat Nat)
    (hv : bfs fuel m modId = some visited) :
    ∃ frontiers, bfsTrace m fuel [(modId, modId)] [modId] = some (visited, frontiers) := by
  have h := bfsTrace_fst m fuel [(modId, modId)] [modId]
  unfold bfs at hv
  rw [hv] at h
  cases ht : bfsTrace m fuel [(modId, modId)] [modId] with
  | none => simp [ht] at h
  | some r =>
    rw [ht] at h
    simp only [Option.map_some', Option.some.injEq] at h
    exact ⟨r.2, by rw [← h]⟩

theorem frontiers_spec (m : ModuleGraph) (fuel modId : Nat) (visited : GoMap Nat Nat)
    (frontiers : List (List Nat))
    (ht : bfsTrace m fuel [(modId, modId)] [modId] = some (visited, frontiers)) :
    bfs fuel m modId = some visited ∧
    frontiers.flatten.Nodup ∧
    (∀ x, x ∈ frontiers.flatten ↔ Reaches m modId x) ∧
    (∀ f ∈ frontiers, f ≠ []) ∧
    frontiers.head? = some [modId] := by
  have hv : bfs fuel m modId = some visited := by
    unfold bfs
    rw [← bfsTrace_fst, ht]
    rfl
  obtain ⟨a, _, c, d, e, f⟩ := bfsTrace_spec m fuel [(modId, modId)] [modId]
    (visited, frontiers) (List.nodup_singleton _) (by simp [GoMap.keys]) ht
  refine ⟨hv, a, ?_, e, f (List.cons_ne_nil _ _)⟩
  intro x
  rw [← (bfs_reaches m modId fuel visited hv).2 x, d x]
  constructor
  · exact fun h => Or.inr h
  · rintro (h | h)
    · simp only [GoMap.keys, List.map_cons, List.map_nil, List.mem_singleton] at h
      rw [h]
      exact c modId (List.mem_singleton_self _)
    · exact h

theorem length_le_length_flatten (L : List (List Nat)) (h : ∀ f ∈ L, f ≠ []) :
    L.length ≤ L.flatten.length := by
  induction L with
  | nil => simp
  | cons f L ih =>
    have hf : 0 < f.length := List.length_pos.mpr (h f (List.mem_cons_self _ _))
    have := ih (fun g hg => h g (List.mem_cons_of_mem _ hg))
    simp only [List.length_cons, List.flatten_cons, List.length_append]
    omega

theorem reaches_mem_values (m : ModuleGraph)
    (hd : ∀ d ∈ allDests m, d ∈ m.Mods.map Prod.snd) (pkg : List Char)
    (modId : Nat) (hfocus : GoMap.get m.Mods pkg = some modId) (x : Nat)
    (hr : Reaches m modId x) : x ∈ m.Mods.map Prod.snd := by
  induction hr with
  | refl => exact List.mem_map_of_mem Prod.snd (GoMap.mem_of_get _ _ _ hfocus)
  | tail _ hbc _ => exact hd _ (mem_allDests m _ _ hbc)

/-- C17. For every graph whose adjacency lists hold identifiers of `Mods` only, cycles
and self-loops included, and every focus argument whose label is in the node table, the
traversal of `Render` ends when it is given as many rounds as `Mods` has entries: the
loop runs at most that many rounds, the frontiers of the rounds share no identifier, and
`Render` returns without error. -/
theorem bfs_rounds_le_nodes (m : ModuleGraph)
    (hd : ∀ d ∈ allDests m, d ∈ m.Mods.map Prod.snd) (args : List Char)
    (modId : Nat) (hargs : TrimSpace args ≠ [])
    (hfocus : GoMap.get m.Mods (ReplaceAt (TrimSpace args)) = some modId) (fuel : Nat)
    (hfuel : GoMap.len m.Mods ≤ fuel) (order : GoMap Nat Nat → GoMap Nat Nat) :
    ∃ visited frontiers,
      bfsTrace m fuel [(modId, modId)] [modId] = some (visited, frontiers) ∧
      frontiers.length ≤ GoMap.len m.Mods ∧ frontiers.flatten.Nodup ∧
      ∃ r, Render fuel order m args = some r ∧ r.err = none := by
  have hfm : modId ∈ (m.Mods.map Prod.snd).toFinset :=
    List.mem_toFinset.mpr (reaches_mem_values m hd _ modId hfocus modId
      Relation.ReflTransGen.refl)
  have hcard : (m.Mods.map Prod.snd).toFinset.card ≤ GoMap.len m.Mods := by
    have := List.toFinset_card_le (m.Mods.map Prod.snd)
    simpa [GoMap.len] using this
  have hterm : ∃ v, bfs fuel m modId = some v := by
    apply bfsLoop_terminates m (m.Mods.map Prod.snd).toFinset
    · intro s d hsd
      exact List.mem_toFinset.mpr (hd d (mem_allDests m s d hsd))
    · have hlt : ((m.Mods.map Prod.snd).toFinset \
          (GoMap.keys [(modId, modId)]).toFinset).card <
          (m.Mods.map Prod.snd).toFinset.card := by
        apply Finset.card_lt_card
        rw [Finset.ssubset_iff_of_subset Finset.sdiff_subset]
        exact ⟨modId, hfm, by simp [GoMap.keys]⟩
      omega
  obtain ⟨visited, hv⟩ := hterm
  obtain ⟨frontiers, ht⟩ := bfsTrace_of_bfs m fuel modId visited hv
  obtain ⟨_, hn, hreach, hne, _⟩ := frontiers_spec m fuel modId visited frontiers ht
  refine ⟨visited, frontiers, ht, ?_, hn,
    _, Render_found fuel order m args modId visited hargs hfocus hv, rfl⟩
  have h1 := length_le_length_flatten frontiers hne
  have h2 : frontiers.flatten.length ≤ (m.Mods.map Prod.snd).toFinset.card := by
    rw [← List.toFinset_card_of_nodup hn]
    apply Finset.card_le_card
    intro x hx
    exact List.mem_toFinset.mpr (reaches_mem_values m hd _ modId hfocus x
      ((hreach x).mp (List.mem_toFinset.mp hx)))
  omega

/-- Witness of C17: the cycle between `a` and `b`, two nodes and two rounds. -/
theorem bfs_rounds_le_nodes_witness :
    ∃ visited frontiers,
      bfsTrace cycleGraph 2 [(1, 1)] [1] = some (visited, frontiers) ∧
      frontiers.length ≤ 2 ∧ frontiers.flatten.Nodup ∧
      ∃ r, Render 2 id cycleGraph "a".toList = some r ∧ r.err = none :=
  bfs_rounds_le_nodes cycleGraph (by decide) "a".toList 1 (by decide) (by decide) 2
    (by decide) id

/-- C18. For every graph and every focus identifier, with fuel for the traversal, the
frontiers of the rounds begin with the frontier that holds the focus alone, and every
identifier that can be reached from the focus occurs exactly once in all the frontiers
together, so its adjacency list is walked once; no other identifier occurs in them. -/
theorem bfs_frontiers_once (m : ModuleGraph) (modId fuel : Nat)
    (hfuel : (allDests m).length < fuel) :
    ∃ visited frontiers,
      bfsTrace m fuel [(modId, modId)] [modId] = some (visited, frontiers) ∧
      bfs fuel m modId = some visited ∧
      frontiers.head? = some [modId] ∧
      (∀ x, Reaches m modId x → frontiers.flatten.count x = 1) ∧
      (∀ x, ¬ Reaches m modId x → frontiers.flatten.count x = 0) := by
  obtain ⟨visited, hv⟩ := bfs_terminates m modId fuel hfuel
  obtain ⟨frontiers, ht⟩ := bfsTrace_of_bfs m fuel modId visited hv
  obtain ⟨_, hn, hreach, _, hhead⟩ := frontiers_spec m fuel modId visited frontiers ht
  refine ⟨visited, frontiers, ht, hv, hhead, ?_, ?_⟩
  · intro x hx
    exact List.count_eq_one_of_mem hn ((hreach x).mpr hx)
  · intro x hx
    exact List.count_eq_zero_of_not_mem (fun h => hx ((hreach x).mp h))

/-- Witness of C18: the cycle between `a` and `b`; `b` leads back to `a`, which is not
put in a frontier again. -/
theorem bfs_frontiers_once_witness :
    bfsTrace cycleGraph 3 [(1, 1)] [1] = some ([(1, 1), (2, 2)], [[1], [2]]) ∧
    ∃ visited frontiers,
      bfsTrace cycleGraph 3 [(1, 1)] [1] = some (visited, frontiers) ∧
      frontiers.head? = some [1] ∧
      (∀ x, Reaches cycleGraph 1 x → frontiers.flatten.count x = 1) :=
  ⟨by decide,
    (bfs_frontiers_once cycleGraph 1 3 (by decide)).imp
      (fun _ hv => hv.imp (fun _ hf => ⟨hf.1, hf.2.2.1, hf.2.2.2.1⟩))⟩

/-! ## The tokens that Parse reads -/

theorem mem_of_mem_TrimSpace (s : List Char) (c : Char) (h : c ∈ TrimSpace s) : c ∈ s := by
  unfold TrimSpace at h
  have h1 := (List.dropWhile_sublist IsSpace).subset (List.mem_reverse.mp h)
  exact (List.dropWhile_sublist IsSpace).subset (List.mem_reverse.mp h1)

theorem dropWhile_of_head {p : Char → Bool} (l : List Char) (c : Char) (rest : List Char)
    (h : l.dropWhile p = c :: rest) : p c = false := by
  have hne : l.dropWhile p ≠ [] := by rw [h]; exact List.cons_ne_nil _ _
  have := List.head_dropWhile_not p l hne
  simpa [h] using this

theorem TrimSpace_idem (s : List Char) : TrimSpace (TrimSpace s) = TrimSpace s := by
  unfold TrimSpace
  generalize hu : s.dropWhile IsSpace = u
  generalize hv : u.reverse.dropWhile IsSpace = v
  have hvv : v.dropWhile IsSpace = v := by
    rw [← hv, List.dropWhile_idempotent]
  have hpre : v.reverse <+: u := by
    have hsuf : v <:+ u.reverse := hv ▸ List.dropWhile_suffix IsSpace
    have := List.reverse_prefix.mpr hsuf
    rwa [List.reverse_reverse] at this
  have hT : v.reverse.dropWhile IsSpace = v.reverse := by
    cases hc : v.reverse with
    | nil => rfl
    | cons c T =>
      rw [hc] at hpre
      obtain ⟨t, ht⟩ := hpre
      have hcu : s.dropWhile IsSpace = c :: (T ++ t) := by rw [hu, ← ht]; rfl
      have hsp := dropWhile_of_head s c _ hcu
      simp [List.dropWhile, hsp]
  rw [hT, List.reverse_reverse, hvv]

theorem Split_pieces (l : List Char) (hl : '\n' ∉ l) :
    ∀ p ∈ Split (l ++ ['\n']), ∃ q, '\n' ∉ q ∧ (p = q ∨ p = q ++ ['\n']) := by
  induction l with
  | nil =>
    intro p hp
    have e : Split ([] ++ ['\n']) = [['\n']] := by decide
    rw [e] at hp
    exact ⟨[], List.not_mem_nil _, Or.inr (List.mem_singleton.mp hp)⟩
  | cons c cs ih =>
    have hc : c ≠ '\n' := fun e => hl (by simp [e])
    have hcs : '\n' ∉ cs := fun e => hl (List.mem_cons_of_mem _ e)
    intro p hp
    rw [List.cons_append, Split] at hp
    by_cases hsp : c = ' '
    · simp only [hsp, if_true, List.mem_cons] at hp
      rcases hp with h | h
      · exact ⟨[], List.not_mem_nil _, Or.inl h⟩
      · exact ih hcs p h
    · simp only [hsp, if_false] at hp
      cases hS : Split (cs ++ ['\n']) with
      | nil => exact absurd hS (Split_ne_nil _)
      | cons p0 ps =>
        rw [hS] at hp ih
        simp only [List.mem_cons] at hp
        rcases hp with h | h
        · obtain ⟨q, hq, hpq⟩ := ih hcs p0 (List.mem_cons_self _ _)
          refine ⟨c :: q, ?_, ?_⟩
          · intro hm
            rcases List.mem_cons.mp hm with h1 | h1
            · exact hc h1.symm
            · exact hq h1
          · rcases hpq with h1 | h1
            · exact Or.inl (by rw [h, h1])
            · exact Or.inr (by rw [h, h1]; rfl)
        · exact ih hcs p (List.mem_cons_of_mem _ h)

theorem TrimSpace_piece (p q : List Char) (hq : '\n' ∉ q) (hp : p = q ∨ p = q ++ ['\n']) :
    '\n' ∉ TrimSpace p := by
  have hT : TrimSpace p = TrimSpace q := by
    rcases hp with h | h
    · rw [h]
    · rw [h]
      have := TrimSpace_pad [] q ['\n'] (fun _ hc => absurd hc (List.not_mem_nil _))
        (fun c hc => by rw [List.mem_singleton.mp hc]; exact IsSpace_newline)
      simpa using this
  rw [hT]
  exact fun hm => hq (mem_of_mem_TrimSpace q _ hm)

theorem lineTokens_spec (l : List Char) (hl : '\n' ∉ l) (t : List Char × List Char)
    (ht : lineTokens (l ++ ['\n']) = some t) :
    ('\n' ∉ t.1 ∧ TrimSpace t.1 = t.1) ∧ ('\n' ∉ t.2 ∧ TrimSpace t.2 = t.2) := by
  unfold lineTokens at ht
  have hpieces := Split_pieces l hl
  cases hS : Split (l ++ ['\n']) with
  | nil => simp [hS] at ht
  | cons r0 rs =>
    cases rs with
    | nil => simp [hS] at ht
    | cons r1 rs1 =>
      rw [hS] at ht hpieces
      simp only [Option.some.injEq] at ht
      subst ht
      obtain ⟨q0, hq0, hp0⟩ := hpieces r0 (by simp)
      obtain ⟨q1, hq1, hp1⟩ := hpieces r1 (by simp)
      exact ⟨⟨TrimSpace_piece r0 q0 hq0 hp0, TrimSpace_idem r0⟩,
        ⟨TrimSpace_piece r1 q1 hq1 hp1, TrimSpace_idem r1⟩⟩

theorem tokenPairs_spec (input : List Char) (acc : List Char) (hacc : '\n' ∉ acc) :
    ∀ t ∈ labelsOf (tokenPairs acc input), '\n' ∉ t ∧ TrimSpace t = t := by
  induction input generalizing acc with
  | nil =>
    intro t ht
    simp [tokenPairs, labelsOf] at ht
  | cons c cs ih =>
    intro t ht
    rw [tokenPairs] at ht
    by_cases hc : c = '\n'
    · simp only [hc, if_true] at ht
      cases hl : lineTokens (acc ++ ['\n']) with
      | none => simp [hl, labelsOf] at ht
      | some tp =>
        rw [hl] at ht
        have e : labelsOf (tp :: tokenPairs [] cs) =
            tp.1 :: tp.2 :: labelsOf (tokenPairs [] cs) := by simp [labelsOf]
        rw [e] at ht
        obtain ⟨h1, h2⟩ := lineTokens_spec acc hacc tp hl
        rcases List.mem_cons.mp ht with h | h
        · rw [h]; exact h1
        · rcases List.mem_cons.mp h with h | h
          · rw [h]; exact h2
          · exact ih [] (List.not_mem_nil _) t h
    · simp only [hc, if_false] at ht
      apply ih (acc ++ [c]) _ t ht
      intro hm
      rcases List.mem_append.mp hm with h | h
      · exact hacc h
      · exact hc (List.mem_singleton.mp h).symm

theorem parseLoop_tokens (input : List Char) (st : ParseState) (acc : List Char)
    (e : Option (List Char)) (g : ModuleGraph)
    (h : parseLoop st acc input = .returned (e, g)) :
    g = (buildFrom st (normPairs (tokenPairs acc input))).m := by
  induction input generalizing st acc with
  | nil =>
    simp only [parseLoop, Outcome.returned.injEq, Prod.mk.injEq] at h
    simp [tokenPairs, normPairs, buildFrom, h.2]
  | cons c cs ih =>
    rw [parseLoop] at h
    rw [tokenPairs]
    by_cases hc : c = '\n'
    · simp only [hc, if_true] at h ⊢
      rw [lineLabels_eq_map] at h
      cases hl : lineTokens (acc ++ ['\n']) with
      | none => simp [hl] at h
      | some tp =>
        simp only [hl, Option.map_some'] at h ⊢
        have := ih _ _ h
        simpa [normPairs, buildFrom] using this
    · simp only [hc, if_false] at h ⊢
      exact ih _ _ h

theorem parsed_tokens (input : List Char) (g : ModuleGraph) (h : parsed input = some g) :
    g = (buildFrom ⟨NewModuleGraph, 1⟩ (normPairs (tokenPairs [] input))).m := by
  unfold parsed at h
  cases hp : Parse input with
  | panicked => simp [hp] at h
  | returned r =>
    obtain ⟨e, g1⟩ := r
    cases e with
    | some e1 => simp [hp] at h
    | none =>
      simp only [hp, Option.some.injEq] at h
      subst h
      exact parseLoop_tokens input _ _ none g1 hp

theorem get_Mods_of_token (input : List Char) (g : ModuleGraph) (h : parsed input = some g)
    (t : List Char) (ht : t ∈ inputTokens input) :
    ∃ i, GoMap.get g.Mods (ReplaceAt t) = some i := by
  have hg := parsed_tokens input g h
  obtain ⟨htab, -, -, -⟩ := buildFrom_spec (normPairs (tokenPairs [] input))
  have hm : ReplaceAt t ∈ firsts (labelsOf (normPairs (tokenPairs [] input))) := by
    rw [mem_firsts, labelsOf_normPairs]
    exact List.mem_map_of_mem _ ht
  have := get_Mods_of_table _ _ htab (ReplaceAt t)
  rw [if_pos hm, ← hg] at this
  exact ⟨_, this⟩

theorem ReplaceAt_of_no_at (t : List Char) (h : '@' ∉ t) : ReplaceAt t = t := by
  induction t with
  | nil => rfl
  | cons c cs ih =>
    have hc : c ≠ '@' := fun e => h (by simp [e])
    have hcs : '@' ∉ cs := fun e => h (List.mem_cons_of_mem _ e)
    rw [ReplaceAt]
    simp only [hc, if_false, ih hcs]

/-- C20. For every input on which `Parse` returns nil, no token that `Parse` reads holds
a line break, so tokens that differ still differ after the first `@` is replaced by a
line break, and they get different identifiers. -/
theorem Parse_distinct_tokens (input : List Char) (g : ModuleGraph)
    (h : parsed input = some g) :
    (∀ t ∈ inputTokens input, '\n' ∉ t) ∧
    ∀ t1 ∈ inputTokens input, ∀ t2 ∈ inputTokens input, t1 ≠ t2 →
      ReplaceAt t1 ≠ ReplaceAt t2 ∧
      ∃ i j, GoMap.get g.Mods (ReplaceAt t1) = some i ∧
        GoMap.get g.Mods (ReplaceAt t2) = some j ∧ i ≠ j := by
  have hnl : ∀ t ∈ inputTokens input, '\n' ∉ t := fun t ht =>
    (tokenPairs_spec input [] (List.not_mem_nil _) t ht).1
  refine ⟨hnl, ?_⟩
  intro t1 h1 t2 h2 hne
  have hne1 : ReplaceAt t1 ≠ ReplaceAt t2 := fun e =>
    hne (ReplaceAt_injective t1 t2 (hnl t1 h1) (hnl t2 h2) e)
  obtain ⟨i, hi⟩ := get_Mods_of_token input g h t1 h1
  obtain ⟨j, hj⟩ := get_Mods_of_token input g h t2 h2
  refine ⟨hne1, i, j, hi, hj, ?_⟩
  intro hij
  have hb := (parsed_wellFormed input g h).1
  have e1 := (hb _ _).mp hi
  have e2 := (hb _ _).mp hj
  rw [hij] at e1
  exact hne1 (Option.some.inj (e1.symm.trans e2))

/-- Witness of C20: `a@1`, `a@2` and `a` are three nodes. -/
theorem Parse_distinct_tokens_witness :
    parsed versionsInput = some versionsGraph ∧
    inputTokens versionsInput = ["a@1".toList, "a@2".toList, "a".toList, "a@1".toList] ∧
    ∀ t ∈ inputTokens versionsInput, '\n' ∉ t :=
  ⟨by decide, by decide, (Parse_distinct_tokens versionsInput versionsGraph (by decide)).1⟩

/-- C13. For every input on which `Parse` returns nil and every token `t` that `Parse`
reads from it, the focus argument `t`, with white space before and after it or without,
is trimmed to `t` and normalised as the label of `t` was (a token without `@` stays as
it is): `Render` returns without error, and for a non-empty token it finds the node and
keeps it in the graph it renders. -/
theorem Render_finds_parsed_label (input : List Char) (g : ModuleGraph)
    (h : parsed input = some g) (t : List Char) (ht : t ∈ inputTokens input)
    (w0 w1 : List Char) (h0 : IsBlank w0) (h1 : IsBlank w1) (fuel : Nat)
    (hfuel : GoMap.len g.ModIdsMap ≤ fuel) (order : GoMap Nat Nat → GoMap Nat Nat)
    (horder : ∀ v, (order v).Perm v) :
    TrimSpace (w0 ++ t ++ w1) = t ∧ ('@' ∉ t → ReplaceAt t = t) ∧
    ∃ modId r, GoMap.get g.Mods (ReplaceAt t) = some modId ∧
      Render fuel order g (w0 ++ t ++ w1) = some r ∧ r.err = none ∧
      (t ≠ [] → GoMap.get r.shown.Mods (ReplaceAt t) = some modId) := by
  have htrim : TrimSpace (w0 ++ t ++ w1) = t := by
    rw [TrimSpace_pad w0 t w1 h0 h1]
    exact (tokenPairs_spec input [] (List.not_mem_nil _) t ht).2
  refine ⟨htrim, ReplaceAt_of_no_at t, ?_⟩
  obtain ⟨modId, hmod⟩ := get_Mods_of_token input g h t ht
  by_cases hne : t = []
  · exact ⟨modId, _, hmod, Render_no_focus fuel order g _ (htrim.trans hne), rfl,
      fun hc => absurd hne hc⟩
  · have hw := parsed_wellFormed input g h
    have hm := focus_mem_nodes g hw _ modId hmod
    obtain ⟨visited, hv⟩ := bfs_terminates_wellFormed g hw modId fuel hm hfuel
    obtain ⟨-, -, f3⟩ := filter_spec g hw modId fuel hm visited hv _ (horder visited)
    have hargs : TrimSpace (w0 ++ t ++ w1) ≠ [] := by rw [htrim]; exact hne
    have hfocus : GoMap.get g.Mods (ReplaceAt (TrimSpace (w0 ++ t ++ w1))) = some modId := by
      rw [htrim]; exact hmod
    exact ⟨modId, _, hmod, Render_found fuel order g _ modId visited hargs hfocus hv, rfl,
      fun _ => (f3 _ modId).mpr ⟨Relation.ReflTransGen.refl, hmod⟩⟩

/-- Witness of C13: the focus ` b@1 ` with blanks around it, on the chain a, b, c. -/
theorem Render_finds_parsed_label_witness :
    parsed chainInput = some chainGraph ∧ "b@1".toList ∈ inputTokens chainInput ∧
    TrimSpace (" ".toList ++ "b@1".toList ++ "\t".toList) = "b@1".toList ∧
    (run 3 id chainInput " b@1\t".toList).map (fun r => (r.err, r.shown.Mods)) =
      some (none, [("b\n1".toList, 2), ("c\n1".toList, 3)]) :=
  ⟨by decide, by decide,
    (Render_finds_parsed_label chainInput chainGraph (by decide) "b@1".toList (by decide)
      " ".toList "\t".toList (by decide) (by decide) 3 (by decide) id
      (fun v => List.Perm.refl v)).1,
    by decide⟩

end Modv
